import Mathlib

/-!
Shallow embedding of the maze repository (`MazeAndCell.py`).

The Python source keeps a grid of `Cell` objects, each holding four boolean
wall flags keyed by compass direction.  Cells are identified by their integer
coordinates, so the embedding represents a cell by its coordinate pair and
the mutable wall state of the whole grid by a function
`Int → Int → Direction → Bool`.  Mutation (`knock_down_wall`, appends to
`self.solution`) becomes explicit state passing.  Python exceptions
(`IndexError` from list indexing or `list.pop` on an empty list,
`RecursionError`) are modelled with `Option`: `none` is a raised exception.
Python `list` indexing admits negative indices (`xs[-1]` is the last
element), which `pyIndex` reproduces.  The unbounded `while` loop of
`make_maze` and the unbounded recursion of `solve` take an explicit fuel
argument; the termination theorems show the chosen fuel is never exhausted
on the inputs the claims quantify over.  `random.choice` is modelled by an
explicit stream of naturals `rng : Nat → Nat`: each choice consumes the head
of the stream and reduces it modulo the length of the candidate list, so
universally quantifying over `rng` covers every possible sequence of random
draws.
-/

namespace MazePy

/-- Compass directions, the keys of the Python `walls` dict. -/
inductive Direction : Type
  | N | S | E | W
deriving DecidableEq

/-- `Cell.wall_pairs`: the opposite-direction bijection {N↔S, E↔W}. -/
def wall_pairs : Direction → Direction
  | .N => .S
  | .S => .N
  | .E => .W
  | .W => .E

/-- A cell is identified by its `(x, y)` coordinates, as in the source. -/
abbrev Pos := Int × Int

/-- The aggregate wall state of the grid: cell `(x, y)`'s flag in direction `d`. -/
abbrev Walls := Int → Int → Direction → Bool

/-- `Maze.move`: pure coordinate arithmetic with the fixed delta table
{W:(-1,0), E:(+1,0), S:(0,+1), N:(0,-1)}. -/
def move (cell : Pos) (direction : Direction) : Pos :=
  match direction with
  | .W => (cell.1 - 1, cell.2)
  | .E => (cell.1 + 1, cell.2)
  | .S => (cell.1, cell.2 + 1)
  | .N => (cell.1, cell.2 - 1)

/-- The `Maze` object: dimensions, entry cell, the wall state of all cells of
`maze_map`, and the `solution` list (cells represented by coordinates). -/
structure Maze where
  nx : Int
  ny : Int
  ix : Int
  iy : Int
  last_x : Int
  last_y : Int
  walls : Walls
  solution : List Pos

/-- `Maze.__init__`: each `Cell` of `maze_map` starts with all four walls
present and `solution` is the empty list.  No validation is performed. -/
def Maze.init (nx ny ix iy : Int) : Maze :=
  { nx := nx, ny := ny, ix := ix, iy := iy,
    last_x := nx - 1, last_y := ny - 1,
    walls := fun _ _ _ => true, solution := [] }

/-- Python list indexing on a list of length `len`: index `i` with
`0 ≤ i < len` is used directly, `-len ≤ i < 0` wraps to `len + i`, anything
else raises `IndexError` (`none`). -/
def pyIndex (len : Nat) (i : Int) : Option Nat :=
  if 0 ≤ i ∧ i < (len : Int) then some i.toNat
  else if -(len : Int) ≤ i ∧ i < 0 then some (i + (len : Int)).toNat
  else none

/-- `Maze.cell_at`: `self.maze_map[x][y]`.  The outer list has length
`nx` (empty for `nx ≤ 0`, because `range` is then empty), the inner lists
length `ny`.  The returned cell is identified by its normalized coordinates,
because the comprehension built `Cell(x, y)` from the `range` values. -/
def Maze.cell_at (m : Maze) (x y : Int) : Option Pos := do
  let xi ← pyIndex m.nx.toNat x
  let yi ← pyIndex m.ny.toNat y
  pure ((xi : Int), (yi : Int))

/-- `Cell.has_all_walls`: `all(self.walls.values())` (dict order N, S, E, W). -/
def has_all_walls (w : Walls) (cell : Pos) : Bool :=
  w cell.1 cell.2 .N && w cell.1 cell.2 .S && w cell.1 cell.2 .E && w cell.1 cell.2 .W

/-- `Cell.knock_down_wall`: clear `self.walls[wall]` on `cell` and
`other.walls[wall_pairs[wall]]` on `other`. -/
def knock_down_wall (w : Walls) (cell other : Pos) (wall : Direction) : Walls :=
  fun x y d =>
    if x = other.1 ∧ y = other.2 ∧ d = wall_pairs wall then false
    else if x = cell.1 ∧ y = cell.2 ∧ d = wall then false
    else w x y d

/-- `Maze.find_valid_neighbours`: for the directions W, E, S, N in order,
keep the in-bounds neighbours that still have all their walls. -/
def Maze.find_valid_neighbours (m : Maze) (cell : Pos) : List (Direction × Pos) :=
  [Direction.W, Direction.E, Direction.S, Direction.N].filterMap fun direction =>
    let p := move cell direction
    if 0 ≤ p.1 ∧ p.1 < m.nx ∧ 0 ≤ p.2 ∧ p.2 < m.ny then
      if has_all_walls m.walls p then some (direction, p) else none
    else none

/-- The loop state of `Maze.make_maze`: the maze (whose walls are being
mutated), the explicit `cell_stack` (top of the Python list is the head
here), the current cell, the visited count `nv`, and the random stream. -/
structure CarveState where
  m : Maze
  cell_stack : List Pos
  current_cell : Pos
  nv : Int
  rng : Nat → Nat

/-- One iteration of the `while` loop body of `make_maze`: backtrack by
popping the stack when there is no valid neighbour (`none` models the
`IndexError` of popping an empty stack), otherwise pick the random
neighbour, knock down the shared wall, push the current cell and advance. -/
def carveStep (s : CarveState) : Option CarveState :=
  let neighbours := s.m.find_valid_neighbours s.current_cell
  if h : neighbours.length = 0 then
    match s.cell_stack with
    | [] => none
    | c :: rest => some { s with current_cell := c, cell_stack := rest }
  else
    let dn := neighbours.get ⟨s.rng 0 % neighbours.length, Nat.mod_lt _ (Nat.pos_of_ne_zero h)⟩
    some { m := { s.m with walls := knock_down_wall s.m.walls s.current_cell dn.2 dn.1 },
           cell_stack := s.current_cell :: s.cell_stack,
           current_cell := dn.2,
           nv := s.nv + 1,
           rng := fun j => s.rng (j + 1) }

/-- The `while nv < n` loop of `make_maze`, with explicit fuel. -/
def carveLoop : Nat → CarveState → Option CarveState
  | 0, s => if s.nv < s.m.nx * s.m.ny then none else some s
  | fuel + 1, s =>
      if s.nv < s.m.nx * s.m.ny then
        match carveStep s with
        | none => none
        | some s' => carveLoop fuel s'
      else some s

/-- `Maze.make_maze`: start at `cell_at(ix, iy)` with `nv = 1` and an empty
stack and run the loop.  The fuel `2 * n + 1` dominates the loop's iteration
count (proved below); `none` models a raised exception. -/
def Maze.make_maze (m : Maze) (rng : Nat → Nat) : Option Maze := do
  let c0 ← m.cell_at m.ix m.iy
  let s ← carveLoop (2 * (m.nx * m.ny).toNat + 1)
      { m := m, cell_stack := [], current_cell := c0, nv := 1, rng := rng }
  pure s.m

/-- The inner helper of `Maze.solve`: `cell.x == destination[0] and
cell.y == destination[1]`. -/
def check_cell_is_destination (destination : Pos) (cell : Pos) : Bool :=
  cell.1 = destination.1 && cell.2 = destination.2

/-- `start_cell = self.cell_at(self.ix, self.iy) if start is None else
self.cell_at(start[0], start[1])`. -/
def resolveStart (m : Maze) (start : Option Pos) : Option Pos :=
  match start with
  | none => m.cell_at m.ix m.iy
  | some p => m.cell_at p.1 p.2

/-- The candidate filter of `solve`: `not v and k != wall_pairs.get(come_from,
None)` — the wall in direction `k` is removed and `k` is not the opposite of
`come_from` (for `come_from = None` the comparison with `None` never excludes
anything). -/
def possibleDir (w : Walls) (cell : Pos) (come_from : Option Direction) (k : Direction) :
    Bool :=
  !(w cell.1 cell.2 k) &&
    !(match come_from with
      | none => false
      | some cf => decide (k = wall_pairs cf))

/-- The `for possible_direction in possible_directions` loop of `solve`:
recurse into each candidate in order, short-circuiting on the first success;
if all fail, `self.solution.pop(-1)` (IndexError on an empty list is `none`)
and report failure.  `recur` is the recursive call at the smaller fuel. -/
def tryDirs (recur : Pos → Direction → Maze → Option (Bool × Maze)) (start_cell : Pos) :
    List Direction → Maze → Option (Bool × Maze)
  | [], m =>
      match m.solution with
      | [] => none
      | _ :: _ => some (false, { m with solution := m.solution.dropLast })
  | d :: ds, m =>
      match recur (move start_cell d) d m with
      | none => none
      | some (true, m') => some (true, m')
      | some (false, m') => tryDirs recur start_cell ds m'

/-- `Maze.solve(destination, start, come_from)` with explicit fuel for the
recursion depth (`none` with fuel 0 models `RecursionError`).  The candidate
directions enumerate `self.walls.items()` in dict insertion order N, S, E, W,
keeping directions whose wall is removed and which are not the opposite of
`come_from`. -/
def solveAux (destination : Pos) : Nat → Maze → Option Pos → Option Direction →
    Option (Bool × Maze)
  | 0, _, _, _ => none
  | fuel + 1, m, start, come_from => do
      let start_cell ← resolveStart m start
      if check_cell_is_destination destination start_cell then
        pure (true, { m with solution := m.solution ++ [start_cell] })
      else
        let possible_directions := [Direction.N, Direction.S, Direction.E,
          Direction.W].filter (possibleDir m.walls start_cell come_from)
        if possible_directions.length = 0 then
          pure (false, m)
        else
          tryDirs (fun p d m' => solveAux destination fuel m' (some p) (some d))
            start_cell possible_directions
            { m with solution := m.solution ++ [start_cell] }

/-- The public `maze.solve(destination)` entry point (`start = None`,
`come_from = None`).  The fuel `nx * ny + 1` bounds the recursion depth on
every carved maze (proved below). -/
def Maze.solve (m : Maze) (destination : Pos) : Option (Bool × Maze) :=
  solveAux destination ((m.nx * m.ny).toNat + 1) m none none

/-! ### Derived notions used by the specification claims -/

/-- Cell `p` lies inside the `nx × ny` grid. -/
def inGrid (nx ny : Int) (p : Pos) : Prop :=
  0 ≤ p.1 ∧ p.1 < nx ∧ 0 ≤ p.2 ∧ p.2 < ny

instance (nx ny : Int) (p : Pos) : Decidable (inGrid nx ny p) := by
  unfold inGrid; infer_instance

/-- One move through a removed wall: `q` is the neighbour of `p` in some
direction whose wall on `p` has been knocked down. -/
def carvedStep (w : Walls) (p q : Pos) : Prop :=
  ∃ d : Direction, q = move p d ∧ w p.1 p.2 d = false

/-- A carved move that does not use the (undirected) edge `{u, v}`. -/
def stepAvoid (w : Walls) (u v : Pos) (p q : Pos) : Prop :=
  carvedStep w p q ∧ ¬(p = u ∧ q = v) ∧ ¬(p = v ∧ q = u)

/-- Reachability through removed walls. -/
def Reach (w : Walls) (p q : Pos) : Prop :=
  Relation.ReflTransGen (carvedStep w) p q

/-- Reachability through removed walls avoiding the undirected edge `{u, v}`. -/
def ReachAvoid (w : Walls) (u v : Pos) (p q : Pos) : Prop :=
  Relation.ReflTransGen (stepAvoid w u v) p q

/-- The number of removed walls, each shared wall counted once per pair:
every pair of horizontally adjacent cells shares exactly one E flag (of its
left cell) and every vertically adjacent pair exactly one S flag (of its
upper cell), so summing the removed E and S flags over the grid counts each
knocked-down pair exactly once while border walls stay present. -/
def removedCount (w : Walls) (nx ny : Int) : Nat :=
  ((Finset.Icc 0 (nx - 1)) ×ˢ (Finset.Icc 0 (ny - 1))).sum fun p : Pos =>
    (if w p.1 p.2 .E = false then 1 else 0) + (if w p.1 p.2 .S = false then 1 else 0)

/-- The invariants of the wall state maintained by carving: wall flags are
symmetric across every shared edge, a removed flag only ever sits between two
in-bounds neighbouring cells (hence border walls are never removed), and
every carved edge is a bridge of the carved graph (the two sides cannot be
joined without the edge itself) — the form of acyclicity the solver relies
on. -/
structure WallsInv (nx ny : Int) (w : Walls) : Prop where
  sym : ∀ p : Pos, ∀ d : Direction, inGrid nx ny p → inGrid nx ny (move p d) →
    w p.1 p.2 d = w (move p d).1 (move p d).2 (wall_pairs d)
  grid : ∀ p : Pos, ∀ d : Direction, w p.1 p.2 d = false →
    inGrid nx ny p ∧ inGrid nx ny (move p d)
  bridge : ∀ p q : Pos, carvedStep w p q → ¬ ReachAvoid w p q p q

/-- Wall symmetry on its own: the flag of `p` toward its in-grid neighbour
equals the neighbour's flag in the opposite direction. -/
def WallSym (nx ny : Int) (w : Walls) : Prop :=
  ∀ p : Pos, ∀ d : Direction, inGrid nx ny p → inGrid nx ny (move p d) →
    w p.1 p.2 d = w (move p d).1 (move p d).2 (wall_pairs d)

/-! ### Elementary facts about `move`, `pyIndex` and `cell_at` -/

theorem move_move_pairs (c : Pos) (d : Direction) : move (move c d) (wall_pairs d) = c := by
  cases d <;> simp [move, wall_pairs]

theorem move_ne (c : Pos) (d : Direction) : move c d ≠ c := by
  cases d <;> simp [move, Prod.ext_iff]

theorem move_dir_inj {c : Pos} {d d' : Direction} (h : move c d = move c d') : d = d' := by
  cases d <;> cases d' <;> simp_all [move, Prod.ext_iff] <;> omega

theorem move_pos_inj {c c' : Pos} {d : Direction} (h : move c d = move c' d) : c = c' := by
  cases d <;> simp_all [move, Prod.ext_iff]

theorem pyIndex_of_nonneg_lt {len : Nat} {i : Int} (h0 : 0 ≤ i) (h1 : i < (len : Int)) :
    pyIndex len i = some i.toNat := by
  simp [pyIndex, h0, h1]

theorem cell_at_inGrid {m : Maze} {x y : Int} (h : inGrid m.nx m.ny (x, y)) :
    m.cell_at x y = some (x, y) := by
  obtain ⟨h1, h2, h3, h4⟩ := h
  have hnx : ((m.nx.toNat : Nat) : Int) = m.nx := Int.toNat_of_nonneg (le_trans h1 (le_of_lt h2))
  have hny : ((m.ny.toNat : Nat) : Int) = m.ny := Int.toNat_of_nonneg (le_trans h3 (le_of_lt h4))
  unfold Maze.cell_at
  rw [pyIndex_of_nonneg_lt h1 (by rw [hnx]; exact h2),
      pyIndex_of_nonneg_lt h3 (by rw [hny]; exact h4)]
  simp [Int.toNat_of_nonneg h1, Int.toNat_of_nonneg h3]

theorem cell_at_mem_grid {m : Maze} {x y : Int} {c : Pos} (h : m.cell_at x y = some c) :
    inGrid m.nx m.ny c := by
  unfold Maze.cell_at at h
  cases hx : pyIndex m.nx.toNat x with
  | none => rw [hx] at h; cases h
  | some xi =>
    cases hy : pyIndex m.ny.toNat y with
    | none => rw [hx, hy] at h; cases h
    | some yi =>
      rw [hx, hy] at h
      have hc : c = ((xi : Int), (yi : Int)) := by
        cases h; rfl
      have hxi : xi < m.nx.toNat := by
        unfold pyIndex at hx
        split at hx
        · rename_i hcond
          cases hx
          omega
        · split at hx
          · rename_i hcond hcond2
            cases hx
            omega
          · cases hx
      have hyi : yi < m.ny.toNat := by
        unfold pyIndex at hy
        split at hy
        · rename_i hcond
          cases hy
          omega
        · split at hy
          · rename_i hcond hcond2
            cases hy
            omega
          · cases hy
      subst hc
      refine ⟨by positivity, ?_, by positivity, ?_⟩
      · have : ((xi : Nat) : Int) < ((m.nx.toNat : Nat) : Int) := by exact_mod_cast hxi
        have hnx0 : (0 : Int) ≤ m.nx := by
          by_contra hneg
          push_neg at hneg
          rw [Int.toNat_of_nonpos (le_of_lt hneg)] at hxi
          omega
        rwa [Int.toNat_of_nonneg hnx0] at this
      · have : ((yi : Nat) : Int) < ((m.ny.toNat : Nat) : Int) := by exact_mod_cast hyi
        have hny0 : (0 : Int) ≤ m.ny := by
          by_contra hneg
          push_neg at hneg
          rw [Int.toNat_of_nonpos (le_of_lt hneg)] at hyi
          omega
        rwa [Int.toNat_of_nonneg hny0] at this

/-! ### Frame and solution-shape lemmas for the solver -/

theorem tryDirs_walls {recur : Pos → Direction → Maze → Option (Bool × Maze)}
    (hrec : ∀ p d m r, recur p d m = some r → r.2.walls = m.walls) :
    ∀ (ds : List Direction) (c : Pos) (m : Maze) (r : Bool × Maze),
      tryDirs recur c ds m = some r → r.2.walls = m.walls := by
  intro ds
  induction ds with
  | nil =>
    intro c m r h
    unfold tryDirs at h
    cases hs : m.solution with
    | nil => rw [hs] at h; cases h
    | cons a t =>
      rw [hs] at h
      cases h
      rfl
  | cons d ds ih =>
    intro c m r h
    unfold tryDirs at h
    cases hr : recur (move c d) d m with
    | none => rw [hr] at h; cases h
    | some br =>
      rw [hr] at h
      obtain ⟨b, m'⟩ := br
      cases b with
      | true => cases h; exact hrec _ _ _ _ hr
      | false => exact (ih c m' r h).trans (hrec _ _ _ _ hr)

theorem solveAux_walls (dest : Pos) :
    ∀ (fuel : Nat) (m : Maze) (start : Option Pos) (cf : Option Direction) (r : Bool × Maze),
      solveAux dest fuel m start cf = some r → r.2.walls = m.walls := by
  intro fuel
  induction fuel with
  | zero => intro m start cf r h; cases h
  | succ n ih =>
    intro m start cf r h
    unfold solveAux at h
    cases hsc : resolveStart m start with
    | none => rw [hsc] at h; cases h
    | some c =>
      rw [hsc] at h
      simp only [Option.bind_eq_bind, Option.some_bind] at h
      by_cases hchk : check_cell_is_destination dest c = true
      · rw [if_pos hchk] at h
        cases h
        rfl
      · rw [if_neg hchk] at h
        split at h
        · cases h
          rfl
        · have hw := tryDirs_walls (fun p d m₂ r₂ h₂ => ih m₂ (some p) (some d) r₂ h₂) _ _ _ _ h
          exact hw

theorem tryDirs_solution {recur : Pos → Direction → Maze → Option (Bool × Maze)}
    (hrec : ∀ p d m r, recur p d m = some r →
      (r.1 = false → r.2.solution = m.solution) ∧
      (r.1 = true → ∃ q, r.2.solution = m.solution ++ q)) :
    ∀ (ds : List Direction) (c : Pos) (m : Maze) (r : Bool × Maze),
      tryDirs recur c ds m = some r →
        (r.1 = false → r.2.solution = m.solution.dropLast ∧ m.solution ≠ []) ∧
        (r.1 = true → ∃ q, r.2.solution = m.solution ++ q) := by
  intro ds
  induction ds with
  | nil =>
    intro c m r h
    unfold tryDirs at h
    cases hs : m.solution with
    | nil => rw [hs] at h; cases h
    | cons a t =>
      rw [hs] at h
      cases h
      constructor
      · intro _
        exact ⟨rfl, by simp⟩
      · intro hcontra
        cases hcontra
  | cons d ds ih =>
    intro c m r h
    unfold tryDirs at h
    cases hr : recur (move c d) d m with
    | none => rw [hr] at h; cases h
    | some br =>
      rw [hr] at h
      obtain ⟨b, m'⟩ := br
      cases b with
      | true =>
        cases h
        constructor
        · intro hcontra; cases hcontra
        · intro _
          exact (hrec _ _ _ _ hr).2 rfl
      | false =>
        have hm' : m'.solution = m.solution := (hrec _ _ _ _ hr).1 rfl
        have hd := ih c m' r h
        constructor
        · intro hf
          obtain ⟨he, hne⟩ := hd.1 hf
          rw [hm'] at he hne
          exact ⟨he, hne⟩
        · intro ht
          obtain ⟨q, hq⟩ := hd.2 ht
          rw [hm'] at hq
          exact ⟨q, hq⟩

theorem solveAux_solution (dest : Pos) :
    ∀ (fuel : Nat) (m : Maze) (start : Option Pos) (cf : Option Direction) (r : Bool × Maze),
      solveAux dest fuel m start cf = some r →
        (r.1 = false → r.2.solution = m.solution) ∧
        (r.1 = true → ∃ q, r.2.solution = m.solution ++ q ∧ q ≠ []) := by
  intro fuel
  induction fuel with
  | zero => intro m start cf r h; cases h
  | succ n ih =>
    intro m start cf r h
    unfold solveAux at h
    cases hsc : resolveStart m start with
    | none => rw [hsc] at h; cases h
    | some c =>
      rw [hsc] at h
      simp only [Option.bind_eq_bind, Option.some_bind] at h
      by_cases hchk : check_cell_is_destination dest c = true
      · rw [if_pos hchk] at h
        cases h
        constructor
        · intro hcontra; cases hcontra
        · intro _
          exact ⟨[c], rfl, by simp⟩
      · rw [if_neg hchk] at h
        split at h
        · cases h
          constructor
          · intro _; rfl
          · intro hcontra; cases hcontra
        · have hrec : ∀ p d m₂ r₂, solveAux dest n m₂ (some p) (some d) = some r₂ →
              (r₂.1 = false → r₂.2.solution = m₂.solution) ∧
              (r₂.1 = true → ∃ q, r₂.2.solution = m₂.solution ++ q) := by
            intro p d m₂ r₂ h₂
            have := ih m₂ (some p) (some d) r₂ h₂
            exact ⟨this.1, fun ht => (this.2 ht).imp fun q hq => hq.1⟩
          have hd := tryDirs_solution hrec _ _ _ _ h
          constructor
          · intro hf
            obtain ⟨he, _⟩ := hd.1 hf
            rw [he]
            simp
          · intro ht
            obtain ⟨q, hq⟩ := hd.2 ht
            refine ⟨c :: q, ?_, by simp⟩
            rw [hq]
            simp

theorem tryDirs_keeps {α : Type} (f : Maze → α)
    (hf : ∀ (m : Maze) (l : List Pos), f { m with solution := l } = f m)
    {recur : Pos → Direction → Maze → Option (Bool × Maze)}
    (hrec : ∀ p d m r, recur p d m = some r → f r.2 = f m) :
    ∀ (ds : List Direction) (c : Pos) (m : Maze) (r : Bool × Maze),
      tryDirs recur c ds m = some r → f r.2 = f m := by
  intro ds
  induction ds with
  | nil =>
    intro c m r h
    unfold tryDirs at h
    cases hs : m.solution with
    | nil => rw [hs] at h; cases h
    | cons a t =>
      rw [hs] at h
      cases h
      exact hf m _
  | cons d ds ih =>
    intro c m r h
    unfold tryDirs at h
    cases hr : recur (move c d) d m with
    | none => rw [hr] at h; cases h
    | some br =>
      rw [hr] at h
      obtain ⟨b, m'⟩ := br
      cases b with
      | true => cases h; exact hrec _ _ _ _ hr
      | false => exact (ih c m' r h).trans (hrec _ _ _ _ hr)

theorem solveAux_keeps {α : Type} (f : Maze → α)
    (hf : ∀ (m : Maze) (l : List Pos), f { m with solution := l } = f m) (dest : Pos) :
    ∀ (fuel : Nat) (m : Maze) (start : Option Pos) (cf : Option Direction) (r : Bool × Maze),
      solveAux dest fuel m start cf = some r → f r.2 = f m := by
  intro fuel
  induction fuel with
  | zero => intro m start cf r h; cases h
  | succ n ih =>
    intro m start cf r h
    unfold solveAux at h
    cases hsc : resolveStart m start with
    | none => rw [hsc] at h; cases h
    | some c =>
      rw [hsc] at h
      simp only [Option.bind_eq_bind, Option.some_bind] at h
      by_cases hchk : check_cell_is_destination dest c = true
      · rw [if_pos hchk] at h
        cases h
        exact hf m _
      · rw [if_neg hchk] at h
        split at h
        · cases h
          rfl
        · have hw := tryDirs_keeps f hf (fun p d m₂ r₂ h₂ => ih m₂ (some p) (some d) r₂ h₂)
            _ _ _ _ h
          exact hw.trans (hf m _)

theorem resolveStart_mem_grid {m : Maze} {start : Option Pos} {c : Pos}
    (h : resolveStart m start = some c) : inGrid m.nx m.ny c := by
  cases start with
  | none => exact cell_at_mem_grid h
  | some p => exact cell_at_mem_grid h

theorem tryDirs_false_inv (P : Maze → Prop)
    {recur : Pos → Direction → Maze → Option (Bool × Maze)}
    (hrec : ∀ p d m r, P m → recur p d m = some r → r.1 = false ∧ P r.2) :
    ∀ (ds : List Direction) (c : Pos) (m : Maze) (r : Bool × Maze),
      tryDirs recur c ds m = some r → P m → r.1 = false := by
  intro ds
  induction ds with
  | nil =>
    intro c m r h hP
    unfold tryDirs at h
    cases hs : m.solution with
    | nil => rw [hs] at h; cases h
    | cons a t =>
      rw [hs] at h
      cases h
      rfl
  | cons d ds ih =>
    intro c m r h hP
    unfold tryDirs at h
    cases hr : recur (move c d) d m with
    | none => rw [hr] at h; cases h
    | some br =>
      rw [hr] at h
      obtain ⟨b, m'⟩ := br
      cases b with
      | true =>
        have := (hrec _ _ _ _ hP hr).1
        cases this
      | false => exact ih c m' r h (hrec _ _ _ _ hP hr).2

theorem solveAux_oob_false {dest : Pos} :
    ∀ (fuel : Nat) (m : Maze) (start : Option Pos) (cf : Option Direction) (r : Bool × Maze),
      ¬ inGrid m.nx m.ny dest → solveAux dest fuel m start cf = some r → r.1 = false := by
  intro fuel
  induction fuel with
  | zero => intro m start cf r _ h; cases h
  | succ n ih =>
    intro m start cf r hdest h
    unfold solveAux at h
    cases hsc : resolveStart m start with
    | none => rw [hsc] at h; cases h
    | some c =>
      rw [hsc] at h
      simp only [Option.bind_eq_bind, Option.some_bind] at h
      have hcg : inGrid m.nx m.ny c := resolveStart_mem_grid hsc
      have hchk : ¬ check_cell_is_destination dest c = true := by
        intro hc
        unfold check_cell_is_destination at hc
        simp only [Bool.and_eq_true, decide_eq_true_eq] at hc
        apply hdest
        have : c = dest := Prod.ext hc.1 hc.2
        rwa [this] at hcg
      rw [if_neg hchk] at h
      split at h
      · cases h
        rfl
      · refine tryDirs_false_inv (fun m₂ => ¬ inGrid m₂.nx m₂.ny dest) ?_ _ _ _ _ h hdest
        intro p d m₂ r₂ hP₂ h₂
        refine ⟨ih m₂ (some p) (some d) r₂ hP₂ h₂, ?_⟩
        have hk := solveAux_keeps (fun mm => (mm.nx, mm.ny)) (fun _ _ => rfl) dest n
          m₂ (some p) (some d) r₂ h₂
        have hnx : r₂.2.nx = m₂.nx := congrArg Prod.fst hk
        have hny : r₂.2.ny = m₂.ny := congrArg Prod.snd hk
        show ¬ inGrid r₂.2.nx r₂.2.ny dest
        rw [hnx, hny]
        exact hP₂

theorem pyIndex_none_iff (len : Nat) (i : Int) :
    pyIndex len i = none ↔ (i < -(len : Int) ∨ (len : Int) ≤ i) := by
  unfold pyIndex
  split_ifs with h1 h2 <;> simp <;> omega

theorem pyIndex_some_val (len : Nat) (i : Int) (h : -(len : Int) ≤ i ∧ i < (len : Int)) :
    pyIndex len i = some (if i < 0 then (i + (len : Int)).toNat else i.toNat) := by
  unfold pyIndex
  by_cases hneg : i < 0
  · rw [if_pos hneg, if_neg (show ¬(0 ≤ i ∧ i < (len : Int)) by omega),
      if_pos (show -(len : Int) ≤ i ∧ i < 0 by omega)]
  · rw [if_neg hneg, if_pos (show 0 ≤ i ∧ i < (len : Int) by omega)]

/-! ### Claim theorems C4 to C9 -/

/-- Claim C4 counterexample: the solution list is not fresh per invocation.
On the carved 1-by-1 maze, a first `solve((0,0))` leaves `solution =
[(0,0)]` and a second identical call leaves `solution = [(0,0), (0,0)]` —
the second call's result accumulates onto the first call's, so it is not
independent of it. -/
theorem solve_solution_not_fresh :
    ((Maze.init 1 1 0 0).make_maze (fun _ => 0)).bind (fun m1 =>
      (m1.solve (0, 0)).bind (fun r1 =>
        (r1.2.solve (0, 0)).map (fun r2 => (r1.2.solution, r2.2.solution)))) =
      some ([(0, 0)], [(0, 0), (0, 0)]) := by
  rfl

/-- Claim C4 (corrected): `solve` never resets `self.solution` (it is
initialized once in `__init__`); a successful call appends its path after
whatever the list already contains.  Hence after two successive successful
solves the second result extends the first: the prior solution is a strict
prefix of the new one, so the second call's path is not independent of the
first call's result. -/
theorem solve_appends_to_existing_solution (m : Maze) (dest : Pos) (m2 : Maze)
    (h : m.solve dest = some (true, m2)) :
    m2.solution.take m.solution.length = m.solution ∧
      m.solution.length < m2.solution.length := by
  obtain ⟨q, hq, hne⟩ := (solveAux_solution dest _ m none none (true, m2) h).2 rfl
  constructor
  · rw [hq, List.take_left]
  · rw [hq, List.length_append]
    have : 0 < q.length := List.length_pos.mpr hne
    omega

/-- Witness for `solve_appends_to_existing_solution` at a concrete maze
whose solution list already holds a path. -/
theorem solve_appends_to_existing_solution_witness :
    ((((Maze.init 1 1 0 0).solve (0, 0)).getD (false, Maze.init 1 1 0 0)).2.solution.take
        (Maze.init 1 1 0 0).solution.length = (Maze.init 1 1 0 0).solution ∧
      (Maze.init 1 1 0 0).solution.length <
        (((Maze.init 1 1 0 0).solve (0, 0)).getD (false, Maze.init 1 1 0 0)).2.solution.length) :=
  solve_appends_to_existing_solution (Maze.init 1 1 0 0) (0, 0) _ (by rfl)

/-- Claim C5 counterexample: `Maze.__init__` performs no validation, so
construction with `nx = 0` does not fail; it returns a `Maze` object (with
the requested dimensions recorded and an empty cell array, so that every
cell access raises `IndexError`).  The claim's "fails before any cell
allocation" is false: no error is raised at construction. -/
theorem init_nonpositive_returns_maze :
    (Maze.init 0 5 0 0).nx = 0 ∧ (Maze.init 0 5 0 0).ny = 5 ∧
      (Maze.init 0 5 0 0).solution = [] ∧ (Maze.init 0 5 0 0).cell_at 0 0 = none :=
  ⟨rfl, rfl, rfl, rfl⟩

/-- Claim C5 (corrected): construction with a non-positive dimension does
not raise; instead the `range` comprehension allocates no cell along that
dimension, so the returned grid has no accessible cell: every `cell_at`
access fails with `IndexError`. -/
theorem init_nonpositive_unusable (nx ny ix iy : Int) (h : nx ≤ 0 ∨ ny ≤ 0) (x y : Int) :
    (Maze.init nx ny ix iy).cell_at x y = none := by
  rcases h with h | h
  · have h0 : (Maze.init nx ny ix iy).nx.toNat = 0 := Int.toNat_of_nonpos h
    unfold Maze.cell_at
    rw [h0]
    have : pyIndex 0 x = none := (pyIndex_none_iff 0 x).mpr (by omega)
    rw [this]
    rfl
  · have h0 : (Maze.init nx ny ix iy).ny.toNat = 0 := Int.toNat_of_nonpos h
    unfold Maze.cell_at
    rw [h0]
    have hy0 : pyIndex 0 y = none := (pyIndex_none_iff 0 y).mpr (by omega)
    rw [hy0]
    cases pyIndex (Maze.init nx ny ix iy).nx.toNat x <;> rfl

/-- Witness for `init_nonpositive_unusable` at `nx = 5`, `ny = -2`. -/
theorem init_nonpositive_unusable_witness :
    ((5 : Int) ≤ 0 ∨ (-2 : Int) ≤ 0) ∧ (Maze.init 5 (-2) 0 0).cell_at 1 1 = none :=
  ⟨Or.inr (by decide), init_nonpositive_unusable 5 (-2) 0 0 (Or.inr (by decide)) 1 1⟩

/-- Claim C6 counterexample: `cell_at(-1, 0)` on a fresh 3-by-3 maze does
not fail; Python list indexing silently wraps the negative index and
returns the cell at `(2, 0)`.  This refutes "for every coordinate pair
outside bounds — including negative coordinates — `cell_at` fails". -/
theorem cell_at_negative_wraps :
    (Maze.init 3 3 0 0).cell_at (-1) 0 = some (2, 0) := by
  rfl

/-- Claim C6 (corrected): `cell_at(x, y)` fails with `IndexError` exactly
when `x` falls outside `[-nx, nx)` or `y` outside `[-ny, ny)`; inside those
ranges a negative coordinate is silently wrapped by Python list indexing to
`nx + x` (resp. `ny + y`), returning that in-bounds cell. -/
theorem cell_at_python_index_semantics (m : Maze) (hx : 0 ≤ m.nx) (hy : 0 ≤ m.ny) (x y : Int) :
    (m.cell_at x y = none ↔ (x < -m.nx ∨ m.nx ≤ x ∨ y < -m.ny ∨ m.ny ≤ y)) ∧
      ((-m.nx ≤ x ∧ x < m.nx ∧ -m.ny ≤ y ∧ y < m.ny) →
        m.cell_at x y =
          some (if x < 0 then m.nx + x else x, if y < 0 then m.ny + y else y)) := by
  have hnx : ((m.nx.toNat : Nat) : Int) = m.nx := Int.toNat_of_nonneg hx
  have hny : ((m.ny.toNat : Nat) : Int) = m.ny := Int.toNat_of_nonneg hy
  constructor
  · have key : m.cell_at x y = none ↔
        (pyIndex m.nx.toNat x = none ∨ pyIndex m.ny.toNat y = none) := by
      unfold Maze.cell_at
      cases hpx : pyIndex m.nx.toNat x with
      | none => simp
      | some xi =>
        cases hpy : pyIndex m.ny.toNat y with
        | none => simp
        | some yi => simp
    rw [key, pyIndex_none_iff, pyIndex_none_iff, hnx, hny]
    constructor
    · rintro (h | h) <;> omega
    · intro h
      omega
  · rintro ⟨h1, h2, h3, h4⟩
    unfold Maze.cell_at
    rw [pyIndex_some_val m.nx.toNat x (by omega), pyIndex_some_val m.ny.toNat y (by omega)]
    simp only [Option.bind_eq_bind, Option.some_bind]
    congr 1
    rw [Prod.mk.injEq]
    constructor
    · split_ifs with hlt
      · rw [Int.toNat_of_nonneg (by omega)]
        omega
      · rw [Int.toNat_of_nonneg (by omega)]
    · split_ifs with hlt
      · rw [Int.toNat_of_nonneg (by omega)]
        omega
      · rw [Int.toNat_of_nonneg (by omega)]

/-- Witness for `cell_at_python_index_semantics` on a concrete maze and
coordinates. -/
theorem cell_at_python_index_semantics_witness :
    (((Maze.init 4 3 0 0).cell_at 9 1 = none ↔
        ((9 : Int) < -4 ∨ (4 : Int) ≤ 9 ∨ (1 : Int) < -3 ∨ (3 : Int) ≤ 1)) ∧
      ((-(4 : Int) ≤ 9 ∧ (9 : Int) < 4 ∧ -(3 : Int) ≤ 1 ∧ (1 : Int) < 3) →
        (Maze.init 4 3 0 0).cell_at 9 1 =
          some (if (9 : Int) < 0 then 4 + 9 else 9, if (1 : Int) < 0 then 3 + 1 else 1))) :=
  cell_at_python_index_semantics (Maze.init 4 3 0 0) (by decide) (by decide) 9 1

/-- Claim C7 counterexample: on the carved 2-by-1 maze, `solve((5, 5))`
with an out-of-bounds destination does not fail fast with an OutOfBounds
error before traversal; instead the search runs, exhausts the maze and
returns `False` with the solution list restored. -/
theorem solve_oob_destination_no_error :
    ((Maze.init 2 1 0 0).make_maze (fun _ => 0)).bind (fun m1 =>
      (m1.solve (5, 5)).map (fun r => (r.1, r.2.solution))) = some (false, []) := by
  rfl

/-- Claim C7 (corrected): `solve` performs no bounds check on the
destination.  With an out-of-bounds destination it raises no error before
traversal; whenever the search returns, it returns `False` (no cell can
ever equal the destination, because all visited cells are in bounds) and
the solution list is left as it was. -/
theorem solve_oob_destination_returns_false (m : Maze) (dest : Pos)
    (hdest : ¬ inGrid m.nx m.ny dest) (r : Bool × Maze) (h : m.solve dest = some r) :
    r.1 = false ∧ r.2.solution = m.solution := by
  have hf : r.1 = false := solveAux_oob_false _ m none none r hdest h
  exact ⟨hf, (solveAux_solution dest _ m none none r h).1 hf⟩

/-- Witness for `solve_oob_destination_returns_false` on the fresh 1-by-1
maze with destination `(9, 9)`. -/
theorem solve_oob_destination_returns_false_witness :
    (¬ inGrid (Maze.init 1 1 0 0).nx (Maze.init 1 1 0 0).ny ((9 : Int), (9 : Int))) ∧
      (((Maze.init 1 1 0 0).solve (9, 9)).getD (true, Maze.init 1 1 0 0)).1 = false ∧
      (((Maze.init 1 1 0 0).solve (9, 9)).getD (true, Maze.init 1 1 0 0)).2.solution =
        (Maze.init 1 1 0 0).solution :=
  ⟨by decide,
    solve_oob_destination_returns_false (Maze.init 1 1 0 0) (9, 9) (by decide) _ (by rfl)⟩

/-- Claim C8: solving never mutates wall state.  For every call of the
recursive solver — any maze, any destination, any start cell, any
`come_from`, whether it reports success or failure — every wall flag of
every cell is identical before and after; in particular this holds for the
public `solve` entry point. -/
theorem solve_never_mutates_walls :
    (∀ (dest : Pos) (fuel : Nat) (m : Maze) (start : Option Pos) (cf : Option Direction)
        (r : Bool × Maze), solveAux dest fuel m start cf = some r →
        ∀ (x y : Int) (d : Direction), r.2.walls x y d = m.walls x y d) ∧
    (∀ (m : Maze) (dest : Pos) (r : Bool × Maze), m.solve dest = some r →
        ∀ (x y : Int) (d : Direction), r.2.walls x y d = m.walls x y d) := by
  constructor
  · intro dest fuel m start cf r h x y d
    rw [solveAux_walls dest fuel m start cf r h]
  · intro m dest r h x y d
    rw [solveAux_walls dest _ m none none r h]

/-- Witness for `solve_never_mutates_walls` on the fresh 1-by-1 maze. -/
theorem solve_never_mutates_walls_witness :
    (((Maze.init 1 1 0 0).solve (0, 0)).getD (false, Maze.init 1 1 0 0)).2.walls 0 0
        Direction.N = (Maze.init 1 1 0 0).walls 0 0 Direction.N :=
  solve_never_mutates_walls.2 (Maze.init 1 1 0 0) (0, 0) _ (by rfl) 0 0 Direction.N

/-- Claim C9: in the embedding the random source is an explicit stream and
carving is a pure function of the maze configuration and that stream, so two
independent builds from identical configurations consuming the same stream
produce identical results (in particular bit-identical wall matrices).  The
code itself, however, offers no way to configure a seed: `Maze.__init__`
accepts no `seed` parameter and `make_maze` draws from the unseeded global
`random` module, while the repository's own `main.py` calls
`Maze(nx, ny, ix, iy, seed=None)`, which raises `TypeError` — the claim
describes the documented intent, the code lacks the parameter. -/
theorem make_maze_deterministic (m1 m2 : Maze)
    (h1 : m1.nx = m2.nx) (h2 : m1.ny = m2.ny) (h3 : m1.ix = m2.ix) (h4 : m1.iy = m2.iy)
    (h5 : m1.last_x = m2.last_x) (h6 : m1.last_y = m2.last_y)
    (h7 : ∀ (x y : Int) (d : Direction), m1.walls x y d = m2.walls x y d)
    (h8 : m1.solution = m2.solution) (rng : Nat → Nat) :
    m1.make_maze rng = m2.make_maze rng := by
  have hw : m1.walls = m2.walls := funext fun x => funext fun y => funext fun d => h7 x y d
  have hm : m1 = m2 := by
    cases m1
    cases m2
    simp_all
  rw [hm]

/-- Witness for `make_maze_deterministic`: two separately constructed
2-by-2 configurations carved with the same stream. -/
theorem make_maze_deterministic_witness :
    (Maze.init 2 2 0 0).make_maze (fun _ => 0) = (Maze.init 2 2 0 0).make_maze (fun _ => 0) :=
  make_maze_deterministic (Maze.init 2 2 0 0) (Maze.init 2 2 0 0) rfl rfl rfl rfl rfl rfl
    (fun _ _ _ => rfl) rfl (fun _ => 0)

/-! ### Grid cells and grid connectivity -/

/-- The finite set of cells of an `nx` by `ny` grid. -/
def gridCells (nx ny : Int) : Finset Pos :=
  Finset.Icc 0 (nx - 1) ×ˢ Finset.Icc 0 (ny - 1)

theorem mem_gridCells {nx ny : Int} {p : Pos} : p ∈ gridCells nx ny ↔ inGrid nx ny p := by
  unfold gridCells inGrid
  rw [Finset.mem_product, Finset.mem_Icc, Finset.mem_Icc]
  omega

theorem card_gridCells (nx ny : Int) : (gridCells nx ny).card = nx.toNat * ny.toNat := by
  unfold gridCells
  rw [Finset.card_product, Int.card_Icc, Int.card_Icc]
  norm_num

/-- Two cells of the grid joined by one `move`, regardless of walls. -/
def gridAdj (nx ny : Int) (p q : Pos) : Prop :=
  inGrid nx ny p ∧ inGrid nx ny q ∧ ∃ d : Direction, q = move p d

theorem grid_connected {nx ny : Int} {e p : Pos} (he : inGrid nx ny e) (hp : inGrid nx ny p) :
    Relation.ReflTransGen (gridAdj nx ny) e p := by
  generalize hm : (p.1 - e.1).natAbs + (p.2 - e.2).natAbs = k
  induction k using Nat.strong_induction_on generalizing p with
  | _ k ih =>
    rcases lt_trichotomy e.1 p.1 with hx | hx | hx
    · have hq : inGrid nx ny (p.1 - 1, p.2) := by
        obtain ⟨a1, a2, a3, a4⟩ := he
        obtain ⟨b1, b2, b3, b4⟩ := hp
        exact ⟨by omega, by omega, b3, b4⟩
      have hrec := ih ((p.1 - 1 - e.1).natAbs + (p.2 - e.2).natAbs) (by omega)
        hq rfl
      refine hrec.tail ⟨hq, hp, Direction.E, ?_⟩
      simp [move, Prod.ext_iff]
    · rcases lt_trichotomy e.2 p.2 with hy | hy | hy
      · have hq : inGrid nx ny (p.1, p.2 - 1) := by
          obtain ⟨a1, a2, a3, a4⟩ := he
          obtain ⟨b1, b2, b3, b4⟩ := hp
          exact ⟨b1, b2, by omega, by omega⟩
        have hrec := ih ((p.1 - e.1).natAbs + (p.2 - 1 - e.2).natAbs) (by omega)
          hq rfl
        refine hrec.tail ⟨hq, hp, Direction.S, ?_⟩
        simp [move, Prod.ext_iff]
      · have : p = e := Prod.ext hx.symm hy.symm
        rw [this]
      · have hq : inGrid nx ny (p.1, p.2 + 1) := by
          obtain ⟨a1, a2, a3, a4⟩ := he
          obtain ⟨b1, b2, b3, b4⟩ := hp
          exact ⟨b1, b2, by omega, by omega⟩
        have hrec := ih ((p.1 - e.1).natAbs + (p.2 + 1 - e.2).natAbs) (by omega)
          hq rfl
        refine hrec.tail ⟨hq, hp, Direction.N, ?_⟩
        simp [move, Prod.ext_iff]
    · have hq : inGrid nx ny (p.1 + 1, p.2) := by
        obtain ⟨a1, a2, a3, a4⟩ := he
        obtain ⟨b1, b2, b3, b4⟩ := hp
        exact ⟨by omega, by omega, b3, b4⟩
      have hrec := ih ((p.1 + 1 - e.1).natAbs + (p.2 - e.2).natAbs) (by omega)
        hq rfl
      refine hrec.tail ⟨hq, hp, Direction.W, ?_⟩
      simp [move, Prod.ext_iff]

/-! ### Characterizing `find_valid_neighbours` -/

theorem mem_find_valid_neighbours {m : Maze} {c : Pos} {d : Direction} {q : Pos} :
    (d, q) ∈ m.find_valid_neighbours c ↔
      q = move c d ∧ inGrid m.nx m.ny q ∧ has_all_walls m.walls q = true := by
  unfold Maze.find_valid_neighbours
  rw [List.mem_filterMap]
  constructor
  · rintro ⟨d', _, hf⟩
    simp only at hf
    split_ifs at hf with hg hw
    · rw [Option.some_inj] at hf
      obtain ⟨hd, hq⟩ := Prod.mk.inj hf
      subst hd
      subst hq
      exact ⟨rfl, hg, hw⟩
  · rintro ⟨rfl, hg, hw⟩
    refine ⟨d, by cases d <;> simp, ?_⟩
    simp only
    have hg' : 0 ≤ (move c d).1 ∧ (move c d).1 < m.nx ∧ 0 ≤ (move c d).2 ∧
        (move c d).2 < m.ny := hg
    rw [if_pos hg', if_pos hw]

theorem find_valid_neighbours_nil {m : Maze} {c : Pos} (h : m.find_valid_neighbours c = [])
    (d : Direction) (hg : inGrid m.nx m.ny (move c d)) :
    has_all_walls m.walls (move c d) = false := by
  by_contra hw
  have hmem : (d, move c d) ∈ m.find_valid_neighbours c :=
    mem_find_valid_neighbours.mpr ⟨rfl, hg, by simpa using hw⟩
  rw [h] at hmem
  cases hmem

/-! ### Facts about `knock_down_wall` -/

theorem wall_pairs_ne (d : Direction) : wall_pairs d ≠ d := by
  cases d <;> simp [wall_pairs]

theorem wall_pairs_pairs (d : Direction) : wall_pairs (wall_pairs d) = d := by
  cases d <;> rfl

theorem wall_pairs_inj {d d' : Direction} (h : wall_pairs d = wall_pairs d') : d = d' := by
  cases d <;> cases d' <;> simp_all [wall_pairs]

theorem knock_eval (w : Walls) (cu o : Pos) (wall : Direction) (p : Pos) (d : Direction) :
    knock_down_wall w cu o wall p.1 p.2 d =
      if p = o ∧ d = wall_pairs wall then false
      else if p = cu ∧ d = wall then false
      else w p.1 p.2 d := by
  unfold knock_down_wall
  have e1 : (p.1 = o.1 ∧ p.2 = o.2 ∧ d = wall_pairs wall) ↔ (p = o ∧ d = wall_pairs wall) := by
    rw [Prod.ext_iff]
    tauto
  have e2 : (p.1 = cu.1 ∧ p.2 = cu.2 ∧ d = wall) ↔ (p = cu ∧ d = wall) := by
    rw [Prod.ext_iff]
    tauto
  simp only [e1, e2]

theorem knock_true_of {w : Walls} {cu o : Pos} {wall : Direction} {p : Pos} {d : Direction}
    (h : knock_down_wall w cu o wall p.1 p.2 d = true) : w p.1 p.2 d = true := by
  rw [knock_eval] at h
  split_ifs at h
  exact h

theorem knock_false_of {w : Walls} {cu o : Pos} {wall : Direction} {p : Pos} {d : Direction}
    (h : w p.1 p.2 d = false) : knock_down_wall w cu o wall p.1 p.2 d = false := by
  rw [knock_eval]
  split_ifs <;> first | rfl | exact h

theorem knock_self (w : Walls) (cu o : Pos) (wall : Direction) :
    knock_down_wall w cu o wall cu.1 cu.2 wall = false := by
  rw [knock_eval]
  split_ifs with h1 h2
  · rfl
  · rfl
  · exact absurd ⟨rfl, rfl⟩ h2

theorem knock_other_cell (w : Walls) (cu o : Pos) (wall : Direction) :
    knock_down_wall w cu o wall o.1 o.2 (wall_pairs wall) = false := by
  rw [knock_eval, if_pos ⟨rfl, rfl⟩]

theorem knock_untouched {w : Walls} {cu o : Pos} {wall : Direction} {p : Pos} {d : Direction}
    (h1 : ¬(p = o ∧ d = wall_pairs wall)) (h2 : ¬(p = cu ∧ d = wall)) :
    knock_down_wall w cu o wall p.1 p.2 d = w p.1 p.2 d := by
  rw [knock_eval, if_neg h1, if_neg h2]

theorem has_all_walls_flags {w : Walls} {p : Pos} (h : has_all_walls w p = true) :
    ∀ d : Direction, w p.1 p.2 d = true := by
  unfold has_all_walls at h
  simp only [Bool.and_eq_true] at h
  intro d
  cases d
  · exact h.1.1.1
  · exact h.1.1.2
  · exact h.1.2
  · exact h.2

theorem has_all_walls_knock_true {w : Walls} {cu o : Pos} {wall : Direction} {p : Pos}
    (h : has_all_walls (knock_down_wall w cu o wall) p = true) : has_all_walls w p = true := by
  unfold has_all_walls at h ⊢
  simp only [Bool.and_eq_true] at h ⊢
  exact ⟨⟨⟨knock_true_of h.1.1.1, knock_true_of h.1.1.2⟩, knock_true_of h.1.2⟩,
    knock_true_of h.2⟩

theorem has_all_walls_false_knock {w : Walls} {cu o : Pos} {wall : Direction} {p : Pos}
    (h : has_all_walls w p = false) : has_all_walls (knock_down_wall w cu o wall) p = false := by
  by_contra hcontra
  rw [Bool.not_eq_false] at hcontra
  rw [has_all_walls_knock_true hcontra] at h
  cases h

/-! ### Monotonicity of reachability under wall removal -/

theorem carvedStep_mono {w w' : Walls} (hmono : ∀ (x y : Int) (d : Direction),
    w x y d = false → w' x y d = false) {p q : Pos} (h : carvedStep w p q) :
    carvedStep w' p q := by
  obtain ⟨d, hq, hf⟩ := h
  exact ⟨d, hq, hmono _ _ _ hf⟩

theorem Reach_mono {w w' : Walls} (hmono : ∀ (x y : Int) (d : Direction),
    w x y d = false → w' x y d = false) {p q : Pos} (h : Reach w p q) : Reach w' p q :=
  Relation.ReflTransGen.mono (fun _ _ hs => carvedStep_mono hmono hs) h

theorem knock_mono (w : Walls) (cu o : Pos) (wall : Direction) :
    ∀ (x y : Int) (d : Direction), w x y d = false →
      knock_down_wall w cu o wall x y d = false := by
  intro x y d h
  exact knock_false_of (p := (x, y)) h

/-! ### Preservation of the wall invariants under one carve -/

theorem WallSym_knock {nx ny : Int} {w : Walls} {cu : Pos} {dir : Direction}
    (hs : WallSym nx ny w) : WallSym nx ny (knock_down_wall w cu (move cu dir) dir) := by
  intro p d hp hpd
  rw [knock_eval, knock_eval]
  by_cases hB : p = move cu dir ∧ d = wall_pairs dir
  · rw [if_pos hB]
    obtain ⟨rfl, rfl⟩ := hB
    rw [if_neg, if_pos]
    · exact ⟨move_move_pairs cu dir, wall_pairs_pairs dir⟩
    · rintro ⟨_, hc⟩
      rw [wall_pairs_pairs] at hc
      exact wall_pairs_ne dir hc.symm
  · by_cases hA : p = cu ∧ d = dir
    · rw [if_neg hB, if_pos hA]
      obtain ⟨rfl, rfl⟩ := hA
      rw [if_pos ⟨rfl, rfl⟩]
    · rw [if_neg hB, if_neg hA, if_neg, if_neg]
      · exact hs p d hp hpd
      · rintro ⟨hm, hd⟩
        apply hB
        have hmmp : move (move p d) (wall_pairs d) = p := move_move_pairs p d
        rw [hm, hd] at hmmp
        constructor
        · exact hmmp.symm
        · rw [← wall_pairs_pairs d, hd]
      · rintro ⟨hm, hd⟩
        have hd' : d = dir := wall_pairs_inj hd
        apply hA
        subst hd'
        exact ⟨move_pos_inj hm, rfl⟩

theorem WallsGrid_knock {nx ny : Int} {w : Walls} {cu : Pos} {dir : Direction}
    (hg : ∀ (p : Pos) (d : Direction), w p.1 p.2 d = false →
      inGrid nx ny p ∧ inGrid nx ny (move p d))
    (hcu : inGrid nx ny cu) (hne : inGrid nx ny (move cu dir)) :
    ∀ (p : Pos) (d : Direction), knock_down_wall w cu (move cu dir) dir p.1 p.2 d = false →
      inGrid nx ny p ∧ inGrid nx ny (move p d) := by
  intro p d h
  rw [knock_eval] at h
  split_ifs at h with h1 h2
  · obtain ⟨rfl, rfl⟩ := h1
    rw [move_move_pairs]
    exact ⟨hne, hcu⟩
  · obtain ⟨rfl, rfl⟩ := h2
    exact ⟨hcu, hne⟩
  · exact hg p d h

theorem carvedStep_knock_iff {w : Walls} {cu : Pos} {dir : Direction} {p q : Pos} :
    carvedStep (knock_down_wall w cu (move cu dir) dir) p q ↔
      carvedStep w p q ∨ (p = cu ∧ q = move cu dir) ∨ (p = move cu dir ∧ q = cu) := by
  constructor
  · rintro ⟨d, rfl, hf⟩
    rw [knock_eval] at hf
    split_ifs at hf with h1 h2
    · obtain ⟨rfl, rfl⟩ := h1
      right
      right
      exact ⟨rfl, move_move_pairs cu dir⟩
    · obtain ⟨rfl, rfl⟩ := h2
      right
      left
      exact ⟨rfl, rfl⟩
    · exact Or.inl ⟨d, rfl, hf⟩
  · rintro (⟨d, rfl, hf⟩ | ⟨h1, h2⟩ | ⟨h1, h2⟩)
    · exact ⟨d, rfl, knock_false_of (p := p) hf⟩
    · rw [h1, h2]
      exact ⟨dir, rfl, knock_self w cu _ dir⟩
    · rw [h1, h2]
      exact ⟨wall_pairs dir, (move_move_pairs cu dir).symm, knock_other_cell w cu _ dir⟩

theorem isolated_no_step_out {w : Walls} {ne : Pos} (hall : has_all_walls w ne = true)
    (q : Pos) : ¬ carvedStep w ne q := by
  rintro ⟨d, _, hf⟩
  rw [has_all_walls_flags hall d] at hf
  cases hf

theorem isolated_no_step_in {nx ny : Int} {w : Walls} {ne : Pos} (winv : WallsInv nx ny w)
    (hall : has_all_walls w ne = true) (p : Pos) : ¬ carvedStep w p ne := by
  rintro ⟨d, hne, hf⟩
  obtain ⟨hp, hpd⟩ := winv.grid p d hf
  have hsym := winv.sym p d hp hpd
  rw [hf, ← hne] at hsym
  rw [has_all_walls_flags hall (wall_pairs d)] at hsym
  cases hsym

theorem reach_avoid_knock_elim {nx ny : Int} {w : Walls} {cu : Pos} {dir : Direction}
    (winv : WallsInv nx ny w) (hall : has_all_walls w (move cu dir) = true)
    {u v a : Pos} (hane : a ≠ move cu dir) {b : Pos}
    (h : ReachAvoid (knock_down_wall w cu (move cu dir) dir) u v a b) :
    (b ≠ move cu dir → ReachAvoid w u v a b) ∧ (b = move cu dir → ReachAvoid w u v a cu) := by
  have hcune : cu ≠ move cu dir := (move_ne cu dir).symm
  induction h with
  | refl =>
    constructor
    · intro _
      exact Relation.ReflTransGen.refl
    · intro hb
      exact absurd hb hane
  | tail hr hstep ih =>
    rename_i b' b''
    obtain ⟨hcs, hav1, hav2⟩ := hstep
    rcases carvedStep_knock_iff.mp hcs with hold | ⟨hb1, hb2⟩ | ⟨hb1, hb2⟩
    · have hb'ne : b' ≠ move cu dir := by
        intro he
        rw [he] at hold
        exact isolated_no_step_out hall b'' hold
      constructor
      · intro hb''ne
        exact (ih.1 hb'ne).tail ⟨hold, hav1, hav2⟩
      · intro he
        rw [he] at hold
        exact absurd hold (isolated_no_step_in winv hall b')
    · constructor
      · intro hne'
        exact absurd hb2 hne'
      · intro _
        have hx := ih.1 (by rw [hb1]; exact hcune)
        rwa [hb1] at hx
    · constructor
      · intro _
        have hx := ih.2 hb1
        rw [hb2]
        exact hx
      · intro hb''eq
        rw [hb2] at hb''eq
        exact absurd hb''eq hcune

theorem no_reach_avoid_new_fwd {nx ny : Int} {w : Walls} {cu : Pos} {dir : Direction}
    (winv : WallsInv nx ny w) (hall : has_all_walls w (move cu dir) = true) {b : Pos}
    (h : ReachAvoid (knock_down_wall w cu (move cu dir) dir) cu (move cu dir) cu b) :
    b ≠ move cu dir := by
  induction h with
  | refl => exact (move_ne cu dir).symm
  | tail hr hstep ih =>
    rename_i b' b''
    obtain ⟨hcs, hav1, hav2⟩ := hstep
    rcases carvedStep_knock_iff.mp hcs with hold | ⟨hb1, hb2⟩ | ⟨hb1, hb2⟩
    · intro he
      rw [he] at hold
      exact isolated_no_step_in winv hall b' hold
    · exact absurd ⟨hb1, hb2⟩ hav1
    · exact absurd hb1 ih

theorem no_reach_avoid_new_bwd {w : Walls} {cu : Pos} {dir : Direction}
    (hall : has_all_walls w (move cu dir) = true) {b : Pos}
    (h : ReachAvoid (knock_down_wall w cu (move cu dir) dir) (move cu dir) cu
      (move cu dir) b) : b = move cu dir := by
  induction h with
  | refl => rfl
  | tail hr hstep ih =>
    rename_i b' b''
    obtain ⟨hcs, hav1, hav2⟩ := hstep
    rcases carvedStep_knock_iff.mp hcs with hold | ⟨hb1, hb2⟩ | ⟨hb1, hb2⟩
    · rw [ih] at hold
      exact absurd hold (isolated_no_step_out hall _)
    · exact hb2
    · exact absurd ⟨hb1, hb2⟩ hav1

theorem WallsInv_knock {nx ny : Int} {w : Walls} {cu : Pos} {dir : Direction}
    (winv : WallsInv nx ny w) (hcu : inGrid nx ny cu) (hne : inGrid nx ny (move cu dir))
    (hall : has_all_walls w (move cu dir) = true) :
    WallsInv nx ny (knock_down_wall w cu (move cu dir) dir) := by
  refine ⟨WallSym_knock winv.sym, WallsGrid_knock winv.grid hcu hne, ?_⟩
  intro p q hpq
  rcases carvedStep_knock_iff.mp hpq with hold | ⟨hb1, hb2⟩ | ⟨hb1, hb2⟩
  · intro hreach
    have hpne : p ≠ move cu dir := by
      intro he
      rw [he] at hold
      exact isolated_no_step_out hall q hold
    have hqne : q ≠ move cu dir := by
      intro he
      rw [he] at hold
      exact isolated_no_step_in winv hall p hold
    exact winv.bridge p q hold ((reach_avoid_knock_elim winv hall hpne hreach).1 hqne)
  · rw [hb1, hb2]
    intro hreach
    exact absurd rfl (no_reach_avoid_new_fwd winv hall hreach)
  · rw [hb1, hb2]
    intro hreach
    exact absurd (no_reach_avoid_new_bwd hall hreach).symm (move_ne cu dir)

/-! ### The removed-wall count increases by exactly one per carve -/

theorem removedCount_eq_sum (w : Walls) (nx ny : Int) :
    removedCount w nx ny = (gridCells nx ny).sum fun p : Pos =>
      (if w p.1 p.2 .E = false then 1 else 0) + (if w p.1 p.2 .S = false then 1 else 0) := rfl

theorem sum_flip {s : Finset Pos} {f g : Pos → Nat} {t : Pos} (ht : t ∈ s)
    (hothers : ∀ p ∈ s, p ≠ t → g p = f p) (htarget : g t = f t + 1) :
    s.sum g = s.sum f + 1 := by
  have he : (s.erase t).sum g = (s.erase t).sum f := by
    apply Finset.sum_congr rfl
    intro p hp
    exact hothers p (Finset.mem_of_mem_erase hp) (Finset.ne_of_mem_erase hp)
  calc s.sum g = g t + (s.erase t).sum g := (Finset.add_sum_erase s g ht).symm
    _ = (f t + 1) + (s.erase t).sum f := by rw [htarget, he]
    _ = (f t + (s.erase t).sum f) + 1 := by omega
    _ = s.sum f + 1 := by
        congr 1
        exact Finset.add_sum_erase s f ht

theorem removedCount_knock {nx ny : Int} {w : Walls} {cu : Pos} {dir : Direction}
    (hsym : WallSym nx ny w) (hcu : inGrid nx ny cu) (hne : inGrid nx ny (move cu dir))
    (hall : has_all_walls w (move cu dir) = true) :
    removedCount (knock_down_wall w cu (move cu dir) dir) nx ny =
      removedCount w nx ny + 1 := by
  rw [removedCount_eq_sum, removedCount_eq_sum]
  have hsymflag := hsym cu dir hcu hne
  rw [has_all_walls_flags hall (wall_pairs dir)] at hsymflag
  cases dir with
  | E =>
    refine sum_flip (mem_gridCells.mpr hcu) ?_ ?_
    · intro p _ hpt
      rw [knock_untouched (by rintro ⟨_, he⟩; cases he)
          (by rintro ⟨he, _⟩; exact hpt he),
        knock_untouched (by rintro ⟨_, he⟩; cases he) (by rintro ⟨_, he⟩; cases he)]
    · rw [knock_self, knock_untouched (by rintro ⟨_, he⟩; cases he)
          (by rintro ⟨_, he⟩; cases he), hsymflag]
      rw [if_pos rfl, if_neg (show ¬((true : Bool) = false) by decide)]
      omega
  | W =>
    refine sum_flip (mem_gridCells.mpr hne) ?_ ?_
    · intro p _ hpt
      rw [knock_untouched (by rintro ⟨he, _⟩; exact hpt he)
          (by rintro ⟨_, he⟩; cases he),
        knock_untouched (by rintro ⟨_, he⟩; cases he) (by rintro ⟨_, he⟩; cases he)]
    · have hko : knock_down_wall w cu (move cu Direction.W) Direction.W
          (move cu Direction.W).1 (move cu Direction.W).2 Direction.E = false :=
        knock_other_cell w cu (move cu Direction.W) Direction.W
      rw [hko,
        knock_untouched (by rintro ⟨_, he⟩; cases he) (by rintro ⟨_, he⟩; cases he),
        has_all_walls_flags hall Direction.E]
      rw [if_pos rfl, if_neg (show ¬((true : Bool) = false) by decide)]
      omega
  | S =>
    refine sum_flip (mem_gridCells.mpr hcu) ?_ ?_
    · intro p _ hpt
      rw [knock_untouched (by rintro ⟨_, he⟩; cases he)
          (by rintro ⟨_, he⟩; cases he),
        knock_untouched (by rintro ⟨_, he⟩; cases he) (by rintro ⟨he, _⟩; exact hpt he)]
    · rw [knock_self, knock_untouched (by rintro ⟨_, he⟩; cases he)
          (by rintro ⟨_, he⟩; cases he), hsymflag]
      rw [if_pos rfl, if_neg (show ¬((true : Bool) = false) by decide)]
  | N =>
    refine sum_flip (mem_gridCells.mpr hne) ?_ ?_
    · intro p _ hpt
      rw [knock_untouched (by rintro ⟨_, he⟩; cases he)
          (by rintro ⟨_, he⟩; cases he),
        knock_untouched (by rintro ⟨he, _⟩; exact hpt he) (by rintro ⟨_, he⟩; cases he)]
    · have hko : knock_down_wall w cu (move cu Direction.N) Direction.N
          (move cu Direction.N).1 (move cu Direction.N).2 Direction.S = false :=
        knock_other_cell w cu (move cu Direction.N) Direction.N
      rw [hko,
        knock_untouched (by rintro ⟨_, he⟩; cases he) (by rintro ⟨_, he⟩; cases he),
        has_all_walls_flags hall Direction.S]
      rw [if_pos rfl, if_neg (show ¬((true : Bool) = false) by decide)]

/-! ### The carving loop invariant -/

theorem has_all_walls_knock_other {w : Walls} {cu o : Pos} {wall : Direction} {p : Pos}
    (h1 : p ≠ cu) (h2 : p ≠ o) :
    has_all_walls (knock_down_wall w cu o wall) p = has_all_walls w p := by
  unfold has_all_walls
  rw [knock_untouched (by rintro ⟨he, _⟩; exact h2 he) (by rintro ⟨he, _⟩; exact h1 he),
    knock_untouched (by rintro ⟨he, _⟩; exact h2 he) (by rintro ⟨he, _⟩; exact h1 he),
    knock_untouched (by rintro ⟨he, _⟩; exact h2 he) (by rintro ⟨he, _⟩; exact h1 he),
    knock_untouched (by rintro ⟨he, _⟩; exact h2 he) (by rintro ⟨he, _⟩; exact h1 he)]

theorem has_all_walls_false_of_flag {w : Walls} {p : Pos} {d : Direction}
    (h : w p.1 p.2 d = false) : has_all_walls w p = false := by
  unfold has_all_walls
  cases d <;> rw [h] <;> simp

/-- The invariant of the carving loop, with `V` the set of visited cells. -/
structure CInv (nx ny : Int) (entry : Pos) (V : Finset Pos) (s : CarveState) : Prop where
  hnx : s.m.nx = nx
  hny : s.m.ny = ny
  hix : s.m.ix = entry.1
  hiy : s.m.iy = entry.2
  hsol : s.m.solution = []
  winv : WallsInv nx ny s.m.walls
  hentry : inGrid nx ny entry
  hentryV : entry ∈ V
  hVgrid : ∀ p ∈ V, inGrid nx ny p
  hcard : (V.card : Int) = s.nv
  hunvis : ∀ p : Pos, inGrid nx ny p → p ∉ V → has_all_walls s.m.walls p = true
  hvis : ∀ p ∈ V, p ≠ entry → has_all_walls s.m.walls p = false
  hreach : ∀ p ∈ V, Reach s.m.walls entry p
  hcount : removedCount s.m.walls nx ny + 1 = V.card
  hstack : ∀ p ∈ s.cell_stack, p ∈ V
  hcur : s.current_cell ∈ V
  hfin : ∀ p ∈ V, p ∉ s.cell_stack → p ≠ s.current_cell →
    ∀ d : Direction, inGrid nx ny (move p d) → move p d ∈ V
  hstart : has_all_walls s.m.walls entry = true →
    V = {entry} ∧ s.current_cell = entry ∧ s.cell_stack = []

theorem CInv_carve {nx ny : Int} {entry : Pos} {V : Finset Pos} {s : CarveState}
    (inv : CInv nx ny entry V s) {dn : Direction × Pos}
    (hmem : dn ∈ s.m.find_valid_neighbours s.current_cell) :
    CInv nx ny entry (insert dn.2 V)
      { m := { s.m with walls := knock_down_wall s.m.walls s.current_cell dn.2 dn.1 },
        cell_stack := s.current_cell :: s.cell_stack, current_cell := dn.2,
        nv := s.nv + 1, rng := fun j => s.rng (j + 1) } := by
  obtain ⟨hq, hgrid, hall⟩ :=
    mem_find_valid_neighbours.mp (show (dn.1, dn.2) ∈ _ from hmem)
  rw [inv.hnx, inv.hny] at hgrid
  set cu := s.current_cell with hcu_def
  have hcu_grid : inGrid nx ny cu := inv.hVgrid cu inv.hcur
  have hne_notV : dn.2 ∉ V := by
    intro hin
    by_cases hne_e : dn.2 = entry
    · have hstart := inv.hstart (by rw [← hne_e]; exact hall)
      rw [← hcu_def] at hstart
      have hthis : dn.2 = move entry dn.1 := by
        rw [hq, hstart.2.1]
      apply move_ne entry dn.1
      rw [← hthis, hne_e]
    · rw [inv.hvis dn.2 hin hne_e] at hall
      cases hall
  have hwinv' : WallsInv nx ny (knock_down_wall s.m.walls cu dn.2 dn.1) := by
    rw [hq]
    exact WallsInv_knock inv.winv hcu_grid (hq ▸ hgrid) (hq ▸ hall)
  refine ⟨inv.hnx, inv.hny, inv.hix, inv.hiy, inv.hsol, hwinv', inv.hentry,
    Finset.mem_insert_of_mem inv.hentryV, ?_, ?_, ?_, ?_, ?_, ?_, ?_, ?_, ?_, ?_⟩
  · intro p hp
    rcases Finset.mem_insert.mp hp with rfl | hp
    · exact hgrid
    · exact inv.hVgrid p hp
  · rw [Finset.card_insert_of_not_mem hne_notV]
    push_cast
    rw [inv.hcard]
  · intro p hpg hpn
    have hpV : p ∉ V := fun hin => hpn (Finset.mem_insert_of_mem hin)
    have hpne : p ≠ dn.2 := fun he => hpn (he ▸ Finset.mem_insert_self dn.2 V)
    have hpcu : p ≠ cu := fun he => hpV (he ▸ inv.hcur)
    rw [has_all_walls_knock_other hpcu hpne]
    exact inv.hunvis p hpg hpV
  · intro p hp hpe
    rcases Finset.mem_insert.mp hp with rfl | hp
    · exact has_all_walls_false_of_flag (d := wall_pairs dn.1) (knock_other_cell _ _ _ _)
    · have := inv.hvis p hp hpe
      exact has_all_walls_false_knock this
  · intro p hp
    have hmono := knock_mono s.m.walls cu dn.2 dn.1
    rcases Finset.mem_insert.mp hp with rfl | hp
    · refine (Reach_mono hmono (inv.hreach cu inv.hcur)).tail ?_
      exact ⟨dn.1, hq, knock_self _ _ _ _⟩
    · exact Reach_mono hmono (inv.hreach p hp)
  · have hrc : removedCount (knock_down_wall s.m.walls cu dn.2 dn.1) nx ny =
        removedCount s.m.walls nx ny + 1 := by
      rw [hq]
      exact removedCount_knock inv.winv.sym hcu_grid (hq ▸ hgrid) (hq ▸ hall)
    rw [hrc, Finset.card_insert_of_not_mem hne_notV]
    have := inv.hcount
    omega
  · intro p hp
    rcases List.mem_cons.mp hp with rfl | hp
    · exact Finset.mem_insert_of_mem inv.hcur
    · exact Finset.mem_insert_of_mem (inv.hstack p hp)
  · exact Finset.mem_insert_self dn.2 V
  · intro p hp hps hpc d hd
    have hpV : p ∈ V := by
      rcases Finset.mem_insert.mp hp with rfl | hp
      · exact absurd rfl hpc
      · exact hp
    have hpcu : p ≠ cu := fun he => hps (by rw [he]; exact List.mem_cons_self cu _)
    have hpstack : p ∉ s.cell_stack := fun hin => hps (List.mem_cons_of_mem cu hin)
    exact Finset.mem_insert_of_mem (inv.hfin p hpV hpstack hpcu d hd)
  · intro hw
    exfalso
    have hwold : has_all_walls s.m.walls entry = true := has_all_walls_knock_true hw
    have hstart := inv.hstart hwold
    rw [← hcu_def] at hstart
    have hflag : knock_down_wall s.m.walls cu dn.2 dn.1 entry.1 entry.2 dn.1 = true :=
      has_all_walls_flags hw dn.1
    rw [← hstart.2.1] at hflag
    rw [knock_self] at hflag
    cases hflag

theorem CInv_backtrack {nx ny : Int} {entry : Pos} {V : Finset Pos} {s : CarveState}
    {c : Pos} {rest : List Pos} (inv : CInv nx ny entry V s)
    (hnil : s.m.find_valid_neighbours s.current_cell = [])
    (hst : s.cell_stack = c :: rest) :
    CInv nx ny entry V { s with current_cell := c, cell_stack := rest } := by
  have hcV : c ∈ V := inv.hstack c (by rw [hst]; exact List.mem_cons_self c rest)
  refine ⟨inv.hnx, inv.hny, inv.hix, inv.hiy, inv.hsol, inv.winv, inv.hentry,
    inv.hentryV, inv.hVgrid, inv.hcard, inv.hunvis, inv.hvis, inv.hreach, inv.hcount,
    ?_, hcV, ?_, ?_⟩
  · intro p hp
    exact inv.hstack p (by rw [hst]; exact List.mem_cons_of_mem c hp)
  · intro p hp hps hpc d hd
    by_cases hpcur : p = s.current_cell
    · by_contra hnot
      rw [hpcur] at hd hnot
      have hfw : has_all_walls s.m.walls (move s.current_cell d) = true :=
        inv.hunvis _ hd hnot
      have hnilc := find_valid_neighbours_nil hnil d (by rw [inv.hnx, inv.hny]; exact hd)
      rw [hnilc] at hfw
      cases hfw
    · refine inv.hfin p hp ?_ hpcur d hd
      rw [hst]
      intro hin
      rcases List.mem_cons.mp hin with rfl | hin
      · exact hpc rfl
      · exact hps hin
  · intro hw
    have hstart := inv.hstart hw
    rw [hst] at hstart
    cases hstart.2.2

theorem stack_ne_nil_of_no_neighbours {nx ny : Int} {entry : Pos} {V : Finset Pos}
    {s : CarveState} (inv : CInv nx ny entry V s) (hlt : s.nv < nx * ny)
    (hnil : s.m.find_valid_neighbours s.current_cell = []) : s.cell_stack ≠ [] := by
  intro hst
  have hclosed : ∀ p ∈ V, ∀ d : Direction, inGrid nx ny (move p d) → move p d ∈ V := by
    intro p hp d hd
    by_cases hpc : p = s.current_cell
    · by_contra hnot
      rw [hpc] at hd hnot
      have hfw : has_all_walls s.m.walls (move s.current_cell d) = true :=
        inv.hunvis _ hd hnot
      have hnilc := find_valid_neighbours_nil hnil d (by rw [inv.hnx, inv.hny]; exact hd)
      rw [hnilc] at hfw
      cases hfw
    · exact inv.hfin p hp (by rw [hst]; exact List.not_mem_nil p) hpc d hd
  have hallV : ∀ p : Pos, inGrid nx ny p → p ∈ V := by
    intro p hp
    have hr := grid_connected inv.hentry hp
    clear hp
    induction hr with
    | refl => exact inv.hentryV
    | tail hr hadj ih =>
      obtain ⟨_, h2, d, rfl⟩ := hadj
      exact hclosed _ ih d h2
  have hsub : gridCells nx ny ⊆ V := fun p hp => hallV p (mem_gridCells.mp hp)
  have hcard := Finset.card_le_card hsub
  rw [card_gridCells] at hcard
  have hx : ((nx.toNat : Nat) : Int) = nx :=
    Int.toNat_of_nonneg (by obtain ⟨a1, a2, _, _⟩ := inv.hentry; omega)
  have hy : ((ny.toNat : Nat) : Int) = ny :=
    Int.toNat_of_nonneg (by obtain ⟨_, _, a3, a4⟩ := inv.hentry; omega)
  have hprod : ((nx.toNat * ny.toNat : Nat) : Int) = nx * ny := by
    push_cast
    rw [hx, hy]
  have hVnv := inv.hcard
  have hcast : ((nx.toNat * ny.toNat : Nat) : Int) ≤ (V.card : Int) := by
    exact_mod_cast hcard
  rw [hprod, hVnv] at hcast
  omega

theorem carveStep_of_nil {s : CarveState}
    (h : s.m.find_valid_neighbours s.current_cell = []) :
    carveStep s = (match s.cell_stack with
      | [] => none
      | c :: rest => some { s with current_cell := c, cell_stack := rest }) := by
  simp [carveStep, h]

theorem carveStep_of_ne_nil {s : CarveState}
    (h : ¬ (s.m.find_valid_neighbours s.current_cell).length = 0) :
    ∃ dn ∈ s.m.find_valid_neighbours s.current_cell,
      carveStep s = some
        { m := { s.m with walls := knock_down_wall s.m.walls s.current_cell dn.2 dn.1 },
          cell_stack := s.current_cell :: s.cell_stack, current_cell := dn.2,
          nv := s.nv + 1, rng := fun j => s.rng (j + 1) } := by
  refine ⟨(s.m.find_valid_neighbours s.current_cell).get
    ⟨s.rng 0 % (s.m.find_valid_neighbours s.current_cell).length,
      Nat.mod_lt _ (Nat.pos_of_ne_zero h)⟩, List.get_mem _ _ _, ?_⟩
  simp only [carveStep]
  rw [dif_neg h]

theorem carveStep_inv {nx ny : Int} {entry : Pos} {V : Finset Pos} {s : CarveState}
    (inv : CInv nx ny entry V s) (hlt : s.nv < nx * ny) :
    ∃ s' V', carveStep s = some s' ∧ CInv nx ny entry V' s' ∧
      2 * ((nx * ny) - s'.nv).toNat + s'.cell_stack.length <
        2 * ((nx * ny) - s.nv).toNat + s.cell_stack.length := by
  by_cases hn : (s.m.find_valid_neighbours s.current_cell).length = 0
  · have hnil := List.length_eq_zero.mp hn
    have hne := stack_ne_nil_of_no_neighbours inv hlt hnil
    cases hst : s.cell_stack with
    | nil => exact absurd hst hne
    | cons c rest =>
      refine ⟨{ s with current_cell := c, cell_stack := rest }, V, ?_,
        CInv_backtrack inv hnil hst, ?_⟩
      · rw [carveStep_of_nil hnil, hst]
      · show 2 * ((nx * ny) - s.nv).toNat + rest.length <
          2 * ((nx * ny) - s.nv).toNat + (c :: rest).length
        simp only [List.length_cons]
        omega
  · obtain ⟨dn, hmem, hstep⟩ := carveStep_of_ne_nil hn
    refine ⟨_, insert dn.2 V, hstep, CInv_carve inv hmem, ?_⟩
    show 2 * ((nx * ny) - (s.nv + 1)).toNat + (s.current_cell :: s.cell_stack).length <
      2 * ((nx * ny) - s.nv).toNat + s.cell_stack.length
    simp only [List.length_cons]
    omega

theorem carveLoop_inv {nx ny : Int} {entry : Pos} :
    ∀ (fuel : Nat) (V : Finset Pos) (s : CarveState), CInv nx ny entry V s →
      2 * ((nx * ny) - s.nv).toNat + s.cell_stack.length < fuel →
      ∃ s' V', carveLoop fuel s = some s' ∧ CInv nx ny entry V' s' ∧
        ¬ (s'.nv < nx * ny) := by
  intro fuel
  induction fuel with
  | zero =>
    intro V s _ hb
    exact absurd hb (Nat.not_lt_zero _)
  | succ n ih =>
    intro V s inv hb
    by_cases hguard : s.nv < s.m.nx * s.m.ny
    · have hlt : s.nv < nx * ny := by
        rw [inv.hnx, inv.hny] at hguard
        exact hguard
      obtain ⟨s', V', hstep, inv', hdec⟩ := carveStep_inv inv hlt
      have hloop : carveLoop (n + 1) s = carveLoop n s' := by
        simp only [carveLoop]
        rw [if_pos hguard, hstep]
      rw [hloop]
      exact ih V' s' inv' (by omega)
    · have hloop : carveLoop (n + 1) s = some s := by
        simp only [carveLoop]
        rw [if_neg hguard]
      rw [hloop]
      refine ⟨s, V, rfl, inv, ?_⟩
      rw [inv.hnx, inv.hny] at hguard
      exact hguard

/-- The initial carving state satisfies the invariant. -/
theorem CInv_initial (nx ny ix iy : Int) (hx1 : 0 ≤ ix) (hx2 : ix < nx) (hy1 : 0 ≤ iy)
    (hy2 : iy < ny) (rng : Nat → Nat) :
    CInv nx ny (ix, iy) {((ix, iy) : Pos)}
      { m := Maze.init nx ny ix iy, cell_stack := [], current_cell := (ix, iy),
        nv := 1, rng := rng } := by
  have hentry : inGrid nx ny ((ix, iy) : Pos) := ⟨hx1, hx2, hy1, hy2⟩
  refine ⟨rfl, rfl, rfl, rfl, rfl, ?_, hentry, Finset.mem_singleton_self _, ?_, ?_, ?_,
    ?_, ?_, ?_, ?_, ?_, ?_, ?_⟩
  · refine ⟨fun p d _ _ => rfl, fun p d h => ?_, fun p q hs => ?_⟩
    · cases h
    · obtain ⟨d, _, hf⟩ := hs
      cases hf
  · intro p hp
    rw [Finset.mem_singleton.mp hp]
    exact hentry
  · rw [Finset.card_singleton]
    rfl
  · intro p _ _
    rfl
  · intro p hp hpe
    exact absurd (Finset.mem_singleton.mp hp) hpe
  · intro p hp
    rw [Finset.mem_singleton.mp hp]
    exact Relation.ReflTransGen.refl
  · have hz : removedCount (Maze.init nx ny ix iy).walls nx ny = 0 := by
      rw [removedCount_eq_sum]
      apply Finset.sum_eq_zero
      intro p _
      rfl
    rw [hz, Finset.card_singleton]
  · intro p hp
    cases hp
  · exact Finset.mem_singleton_self _
  · intro p hp _ hpc
    exact absurd (Finset.mem_singleton.mp hp) hpc
  · intro _
    exact ⟨rfl, rfl, rfl⟩

/-- The full postcondition of `make_maze` on a fresh maze with an in-bounds
entry: it returns (no exception, loop terminated), the configuration fields
and the empty solution are untouched, the wall invariants (symmetry,
walls-only-in-grid, every carved edge a bridge) hold, exactly
`nx * ny - 1` wall pairs were removed, and every cell of the grid is
reachable from the entry through removed walls. -/
theorem make_maze_spec (nx ny ix iy : Int) (hx1 : 0 ≤ ix) (hx2 : ix < nx) (hy1 : 0 ≤ iy)
    (hy2 : iy < ny) (rng : Nat → Nat) :
    ∃ m', (Maze.init nx ny ix iy).make_maze rng = some m' ∧
      m'.nx = nx ∧ m'.ny = ny ∧ m'.ix = ix ∧ m'.iy = iy ∧ m'.solution = [] ∧
      WallsInv nx ny m'.walls ∧
      removedCount m'.walls nx ny + 1 = (nx * ny).toNat ∧
      (∀ p : Pos, inGrid nx ny p → Reach m'.walls (ix, iy) p) ∧
      ∃ s', carveLoop (2 * (nx * ny).toNat + 1)
          { m := Maze.init nx ny ix iy, cell_stack := [], current_cell := (ix, iy),
            nv := 1, rng := rng } = some s' ∧ s'.nv = nx * ny ∧ m' = s'.m := by
  have hentry : inGrid nx ny ((ix, iy) : Pos) := ⟨hx1, hx2, hy1, hy2⟩
  have hinv0 := CInv_initial nx ny ix iy hx1 hx2 hy1 hy2 rng
  obtain ⟨s', V', hloop, inv', hstop⟩ :=
    carveLoop_inv (2 * (nx * ny).toNat + 1) {((ix, iy) : Pos)}
      { m := Maze.init nx ny ix iy, cell_stack := [], current_cell := (ix, iy),
        nv := 1, rng := rng } hinv0
      (by
        show 2 * ((nx * ny) - 1).toNat + ([] : List Pos).length < 2 * (nx * ny).toNat + 1
        simp only [List.length_nil]
        omega)
  have hrun : (Maze.init nx ny ix iy).make_maze rng =
      (carveLoop (2 * (nx * ny).toNat + 1)
        { m := Maze.init nx ny ix iy, cell_stack := [], current_cell := (ix, iy),
          nv := 1, rng := rng }).bind (fun s => some s.m) := by
    unfold Maze.make_maze
    rw [show (Maze.init nx ny ix iy).cell_at (Maze.init nx ny ix iy).ix
        (Maze.init nx ny ix iy).iy = some ((ix, iy) : Pos) from cell_at_inGrid hentry]
    rfl
  have hsub : V' ⊆ gridCells nx ny := fun p hp => mem_gridCells.mpr (inv'.hVgrid p hp)
  have hcardle : V'.card ≤ nx.toNat * ny.toNat := by
    have hc := Finset.card_le_card hsub
    rwa [card_gridCells] at hc
  have hprod : ((nx.toNat * ny.toNat : Nat) : Int) = nx * ny := by
    push_cast
    rw [Int.toNat_of_nonneg (by omega : (0 : Int) ≤ nx),
      Int.toNat_of_nonneg (by omega : (0 : Int) ≤ ny)]
  have hnv : s'.nv = nx * ny := by
    have h1 := inv'.hcard
    have h2 : ((V'.card : Nat) : Int) ≤ ((nx.toNat * ny.toNat : Nat) : Int) := by
      exact_mod_cast hcardle
    rw [hprod] at h2
    omega
  have hcardeq : V'.card = (nx * ny).toNat := by
    have h1 := inv'.hcard
    omega
  have hVeq : V' = gridCells nx ny := by
    apply Finset.eq_of_subset_of_card_le hsub
    rw [card_gridCells, hcardeq]
    omega
  refine ⟨s'.m, ?_, inv'.hnx, inv'.hny, inv'.hix, inv'.hiy, inv'.hsol, inv'.winv, ?_, ?_,
    s', hloop, hnv, rfl⟩
  · rw [hrun, hloop]
    rfl
  · rw [inv'.hcount, hcardeq]
  · intro p hp
    have hpV : p ∈ V' := by
      rw [hVeq]
      exact mem_gridCells.mpr hp
    exact inv'.hreach p hpV

/-! ### Claim theorems C1, C10 and C3 -/

/-- Claim C1: for every grid of `nx ≥ 1` by `ny ≥ 1` cells (with the entry
in bounds, as in every use in the repository) and every random stream,
`make_maze` completes and the carved passage structure is a spanning tree:
the number of removed walls, counting each shared pair once, is exactly
`nx * ny - 1`, and every cell of the grid is reachable from the entry
`(ix, iy)` by moving only through removed walls. -/
theorem make_maze_spanning_tree (nx ny ix iy : Int) (hnx : 1 ≤ nx) (hny : 1 ≤ ny)
    (hx1 : 0 ≤ ix) (hx2 : ix < nx) (hy1 : 0 ≤ iy) (hy2 : iy < ny) (rng : Nat → Nat) :
    ∃ m', (Maze.init nx ny ix iy).make_maze rng = some m' ∧
      (removedCount m'.walls nx ny : Int) = nx * ny - 1 ∧
      ∀ p : Pos, inGrid nx ny p → Reach m'.walls (ix, iy) p := by
  obtain ⟨m', hrun, _, _, _, _, _, _, hcount, hreach, _⟩ :=
    make_maze_spec nx ny ix iy hx1 hx2 hy1 hy2 rng
  refine ⟨m', hrun, ?_, hreach⟩
  have hpos : (0 : Int) < nx * ny := mul_pos (by omega) (by omega)
  omega

/-- Witness for `make_maze_spanning_tree` on a concrete 2-by-2 carve. -/
theorem make_maze_spanning_tree_witness :
    ((1 : Int) ≤ 2 ∧ (0 : Int) ≤ 0 ∧ (0 : Int) < 2) ∧
      ∃ m', (Maze.init 2 2 0 0).make_maze (fun _ => 0) = some m' ∧
        (removedCount m'.walls 2 2 : Int) = 2 * 2 - 1 ∧
        ∀ p : Pos, inGrid 2 2 p → Reach m'.walls (0, 0) p :=
  ⟨⟨by decide, by decide, by decide⟩,
    make_maze_spanning_tree 2 2 0 0 (by decide) (by decide) (by decide) (by decide)
      (by decide) (by decide) (fun _ => 0)⟩

/-- Claim C10: `make_maze` terminates for every grid with `nx ≥ 1` and
`ny ≥ 1` (entry in bounds) and every random stream; the loop exits exactly
when the visited count reaches `nx * ny` — the final loop state has
`nv = nx * ny`, termination being driven by the count, not by stack
emptiness; and on a 1-by-1 grid it terminates immediately with visited
count 1, removing no walls (the maze comes back unchanged). -/
theorem make_maze_terminates (nx ny ix iy : Int) (hnx : 1 ≤ nx) (hny : 1 ≤ ny)
    (hx1 : 0 ≤ ix) (hx2 : ix < nx) (hy1 : 0 ≤ iy) (hy2 : iy < ny) (rng : Nat → Nat) :
    (∃ m', (Maze.init nx ny ix iy).make_maze rng = some m') ∧
    (∃ s', carveLoop (2 * (nx * ny).toNat + 1)
        { m := Maze.init nx ny ix iy, cell_stack := [], current_cell := (ix, iy),
          nv := 1, rng := rng } = some s' ∧ s'.nv = nx * ny) ∧
    (nx = 1 → ny = 1 → (Maze.init nx ny ix iy).make_maze rng = some (Maze.init nx ny ix iy)) := by
  obtain ⟨m', hrun, _, _, _, _, _, _, _, _, s', hloop, hnv, _⟩ :=
    make_maze_spec nx ny ix iy hx1 hx2 hy1 hy2 rng
  refine ⟨⟨m', hrun⟩, ⟨s', hloop, hnv⟩, ?_⟩
  intro h1 h2
  subst h1
  subst h2
  have hix0 : ix = 0 := by omega
  have hiy0 : iy = 0 := by omega
  subst hix0
  subst hiy0
  rfl

/-- Witness for `make_maze_terminates` on the 1-by-1 grid. -/
theorem make_maze_terminates_witness :
    ((1 : Int) ≤ 1 ∧ (0 : Int) ≤ 0 ∧ (0 : Int) < 1) ∧
      ((∃ m', (Maze.init 1 1 0 0).make_maze (fun _ => 0) = some m') ∧
        (∃ s', carveLoop (2 * ((1 : Int) * 1).toNat + 1)
            { m := Maze.init 1 1 0 0, cell_stack := [], current_cell := (0, 0),
              nv := 1, rng := fun _ => 0 } = some s' ∧ s'.nv = 1 * 1) ∧
        ((1 : Int) = 1 → (1 : Int) = 1 →
          (Maze.init 1 1 0 0).make_maze (fun _ => 0) = some (Maze.init 1 1 0 0))) :=
  ⟨⟨by decide, by decide, by decide⟩,
    make_maze_terminates 1 1 0 0 (by decide) (by decide) (by decide) (by decide)
      (by decide) (by decide) (fun _ => 0)⟩

/-- Claim C3: wall symmetry is an invariant at all times.  The four
conjuncts state it (in order) for the freshly constructed grid, after any
`knock_down_wall` applied (as carving does) to a cell and its neighbour in
the knocked direction, after a completed `make_maze`, and across `solve`,
which leaves every wall flag — hence also symmetry — untouched. -/
theorem wall_symmetry_invariant :
    (∀ nx ny ix iy : Int, WallSym nx ny (Maze.init nx ny ix iy).walls) ∧
    (∀ (nx ny : Int) (w : Walls) (c : Pos) (d : Direction), WallSym nx ny w →
      WallSym nx ny (knock_down_wall w c (move c d) d)) ∧
    (∀ (nx ny ix iy : Int) (rng : Nat → Nat) (m' : Maze), 0 ≤ ix → ix < nx → 0 ≤ iy →
      iy < ny → (Maze.init nx ny ix iy).make_maze rng = some m' →
      WallSym nx ny m'.walls) ∧
    (∀ (dest : Pos) (fuel : Nat) (m : Maze) (start : Option Pos) (cf : Option Direction)
      (r : Bool × Maze), solveAux dest fuel m start cf = some r →
      ∀ (x y : Int) (dd : Direction), r.2.walls x y dd = m.walls x y dd) := by
  refine ⟨?_, ?_, ?_, ?_⟩
  · intro nx ny ix iy p d _ _
    rfl
  · intro nx ny w c d hs
    exact WallSym_knock hs
  · intro nx ny ix iy rng m' hx1 hx2 hy1 hy2 hrun
    obtain ⟨m'', hrun', _, _, _, _, _, winv, _⟩ :=
      make_maze_spec nx ny ix iy hx1 hx2 hy1 hy2 rng
    rw [hrun] at hrun'
    cases hrun'
    exact winv.sym
  · intro dest fuel m start cf r h x y dd
    rw [solveAux_walls dest fuel m start cf r h]

/-- Witness for `wall_symmetry_invariant` on concrete instances. -/
theorem wall_symmetry_invariant_witness :
    WallSym 2 1 (Maze.init 2 1 0 0).walls ∧
      WallSym 2 1 (((Maze.init 2 1 0 0).make_maze (fun _ => 0)).getD
        (Maze.init 2 1 0 0)).walls ∧
      (((Maze.init 1 1 0 0).solve (0, 0)).getD (false, Maze.init 1 1 0 0)).2.walls 0 0
        Direction.S = (Maze.init 1 1 0 0).walls 0 0 Direction.S :=
  ⟨wall_symmetry_invariant.1 2 1 0 0,
    wall_symmetry_invariant.2.2.1 2 1 0 0 (fun _ => 0) _ (by decide) (by decide)
      (by decide) (by decide) (by rfl),
    wall_symmetry_invariant.2.2.2 (0, 0) (((1 : Int) * 1).toNat + 1) (Maze.init 1 1 0 0) none none _
      (by rfl) 0 0 Direction.S⟩

/-! ### Subtrees of the carved tree: support for solver correctness -/

/-- The edge excluded by the solver's `come_from` argument at cell `c`:
nothing for `none` (encoded as the non-edge `(c, c)`), and the edge back to
the cell arrived from for `some cf`. -/
def comeFromEdge (c : Pos) : Option Direction → Pos × Pos
  | none => (c, c)
  | some cf => (c, move c (wall_pairs cf))

/-- The set of cells reachable from `c` through removed walls without ever
crossing the undirected edge `e`. -/
def subtreeSet (w : Walls) (c : Pos) (e : Pos × Pos) : Set Pos :=
  {x | ReachAvoid w e.1 e.2 c x}

theorem mem_subtreeSet {w : Walls} {c : Pos} {e : Pos × Pos} {x : Pos} :
    x ∈ subtreeSet w c e ↔ ReachAvoid w e.1 e.2 c x := Iff.rfl

theorem self_mem_subtreeSet (w : Walls) (c : Pos) (e : Pos × Pos) :
    c ∈ subtreeSet w c e := Relation.ReflTransGen.refl

theorem ReachAvoid_inGrid {nx ny : Int} {w : Walls}
    (hg : ∀ (p : Pos) (d : Direction), w p.1 p.2 d = false →
      inGrid nx ny p ∧ inGrid nx ny (move p d))
    {u v a b : Pos} (ha : inGrid nx ny a) (h : ReachAvoid w u v a b) : inGrid nx ny b := by
  induction h with
  | refl => exact ha
  | tail hr hstep ih =>
    obtain ⟨⟨d, rfl, hf⟩, _, _⟩ := hstep
    exact (hg _ d hf).2

theorem subtreeSet_finite {nx ny : Int} {w : Walls}
    (hg : ∀ (p : Pos) (d : Direction), w p.1 p.2 d = false →
      inGrid nx ny p ∧ inGrid nx ny (move p d))
    {c : Pos} (hc : inGrid nx ny c) (e : Pos × Pos) : (subtreeSet w c e).Finite := by
  apply Set.Finite.subset (gridCells nx ny).finite_toSet
  intro x hx
  rw [Finset.mem_coe, mem_gridCells]
  exact ReachAvoid_inGrid hg hc hx

theorem subtreeSet_ncard_le {nx ny : Int} {w : Walls}
    (hg : ∀ (p : Pos) (d : Direction), w p.1 p.2 d = false →
      inGrid nx ny p ∧ inGrid nx ny (move p d))
    {c : Pos} (hc : inGrid nx ny c) (e : Pos × Pos) :
    (subtreeSet w c e).ncard ≤ nx.toNat * ny.toNat := by
  have hsub : subtreeSet w c e ⊆ ↑(gridCells nx ny) := by
    intro x hx
    rw [Finset.mem_coe, mem_gridCells]
    exact ReachAvoid_inGrid hg hc hx
  have := Set.ncard_le_ncard hsub (gridCells nx ny).finite_toSet
  rwa [Set.ncard_coe_Finset, card_gridCells] at this

/-- A reach whose target differs from `c` can be rearranged to never revisit
`c` after the start (take the suffix after the last visit). -/
theorem reach_no_revisit {R : Pos → Pos → Prop} {c b : Pos}
    (h : Relation.ReflTransGen R c b) (hb : b ≠ c) :
    Relation.ReflTransGen (fun p q => R p q ∧ q ≠ c) c b := by
  induction h with
  | refl => exact absurd rfl hb
  | tail hr hstep ih =>
    rename_i b' b''
    by_cases hb' : b' = c
    · rw [hb'] at hstep
      exact Relation.ReflTransGen.single ⟨hstep, hb⟩
    · exact (ih hb').tail ⟨hstep, hb⟩

/-- Monotone transfer along a reach with a propagated point invariant. -/
theorem reach_invariant_mono {R S : Pos → Pos → Prop} {P : Pos → Prop}
    (hprop : ∀ p q, R p q → P p → P q) (himp : ∀ p q, R p q → P p → S p q)
    {a b : Pos} (ha : P a) (h : Relation.ReflTransGen R a b) :
    P b ∧ Relation.ReflTransGen S a b := by
  induction h with
  | refl => exact ⟨ha, Relation.ReflTransGen.refl⟩
  | tail hr hstep ih =>
    exact ⟨hprop _ _ hstep ih.1, ih.2.tail (himp _ _ hstep ih.1)⟩

/-- First-step decomposition of a reach from `c` to a different destination
avoiding the come-from edge: some direction with a removed wall, not the
excluded back direction, leads to a cell from which the destination is
reachable without crossing the new back edge. -/
theorem first_step_decomp {w : Walls} {c dest : Pos} {cf : Option Direction}
    (hne : dest ≠ c)
    (hreach : ReachAvoid w (comeFromEdge c cf).1 (comeFromEdge c cf).2 c dest) :
    ∃ d : Direction, w c.1 c.2 d = false ∧
      (∀ cf' : Direction, cf = some cf' → d ≠ wall_pairs cf') ∧
      dest ∈ subtreeSet w (move c d) (move c d, c) := by
  have hnorev := reach_no_revisit hreach hne
  rcases (Relation.ReflTransGen.cases_head hnorev) with heq | ⟨u, hstep1, hrest⟩
  · exact absurd heq.symm hne
  · obtain ⟨⟨⟨d, rfl, hf⟩, hav1, hav2⟩, hunc⟩ := hstep1
    refine ⟨d, hf, ?_, ?_⟩
    · intro cf' hcf heq
      apply hav1
      rw [hcf]
      subst heq
      exact ⟨rfl, rfl⟩
    · rw [mem_subtreeSet]
      have := reach_invariant_mono (P := fun p => p ≠ c)
        (R := fun p q => (stepAvoid w (comeFromEdge c cf).1 (comeFromEdge c cf).2 p q) ∧ q ≠ c)
        (S := stepAvoid w (move c d) c)
        (fun p q hpq _ => hpq.2)
        (fun p q hpq hp => ⟨hpq.1.1, fun hc => hpq.2 hc.2, fun hc => hp hc.1⟩)
        hunc hrest
      exact this.2

/-- Inside a carved graph whose every edge is a bridge, the subtree hanging
off `u = move c d` away from `c` misses `c` entirely and embeds in the
subtree of `c`. -/
theorem subtree_child {nx ny : Int} {w : Walls} (winv : WallsInv nx ny w)
    {c : Pos} {d : Direction} (hf : w c.1 c.2 d = false) {e2 : Pos}
    (hstep_avoid : stepAvoid w c e2 c (move c d)) {x : Pos}
    (hx : x ∈ subtreeSet w (move c d) (move c d, c)) :
    x ≠ c ∧ x ∈ subtreeSet w c (c, e2) := by
  obtain ⟨hcg, hug⟩ := winv.grid c d hf
  have hcarved_uc : carvedStep w (move c d) c := by
    refine ⟨wall_pairs d, (move_move_pairs c d).symm, ?_⟩
    have hsym := winv.sym c d hcg hug
    rw [hf] at hsym
    exact hsym.symm
  have hbridge := winv.bridge (move c d) c hcarved_uc
  rw [mem_subtreeSet] at hx
  induction hx with
  | refl =>
    constructor
    · exact move_ne c d
    · exact Relation.ReflTransGen.single hstep_avoid
  | tail hr hstep ih =>
    rename_i b' b''
    obtain ⟨hcs, hav1, hav2⟩ := hstep
    have hb'' : b'' ≠ c := by
      intro he
      subst he
      exact hbridge (hr.tail ⟨hcs, hav1, hav2⟩)
    refine ⟨hb'', ih.2.tail ⟨hcs, ?_, ?_⟩⟩
    · rintro ⟨he, _⟩
      exact ih.1 he
    · rintro ⟨_, he⟩
      exact hb'' he

/-! ### Running the candidate loop -/

theorem tryDirs_fail_run (recur : Pos → Direction → Maze → Option (Bool × Maze)) (c : Pos) :
    ∀ (ds : List Direction) (m : Maze),
      (∀ d ∈ ds, recur (move c d) d m = some (false, m)) →
      m.solution ≠ [] →
      tryDirs recur c ds m = some (false, { m with solution := m.solution.dropLast }) := by
  intro ds
  induction ds with
  | nil =>
    intro m _ hsol
    unfold tryDirs
    cases hs : m.solution with
    | nil => exact absurd hs hsol
    | cons a t => rfl
  | cons d ds ih =>
    intro m hall hsol
    unfold tryDirs
    rw [hall d (List.mem_cons_self d ds)]
    exact ih m (fun d' hd' => hall d' (List.mem_cons_of_mem d hd')) hsol

theorem tryDirs_success_run (recur : Pos → Direction → Maze → Option (Bool × Maze))
    (c : Pos) (Q : Direction → Maze → Prop) :
    ∀ (ds : List Direction) (m : Maze),
      (∀ d ∈ ds, recur (move c d) d m = some (false, m) ∨
        ∃ m', recur (move c d) d m = some (true, m') ∧ Q d m') →
      (∃ d ∈ ds, ∃ m', recur (move c d) d m = some (true, m') ∧ Q d m') →
      ∃ d ∈ ds, ∃ m', tryDirs recur c ds m = some (true, m') ∧ Q d m' := by
  intro ds
  induction ds with
  | nil =>
    rintro m _ ⟨d, hd, _⟩
    cases hd
  | cons d0 ds ih =>
    rintro m hall hex
    rcases hall d0 (List.mem_cons_self d0 ds) with hfail | ⟨m', hsucc, hQ⟩
    · have hex' : ∃ d ∈ ds, ∃ m', recur (move c d) d m = some (true, m') ∧ Q d m' := by
        obtain ⟨d, hd, m', hs, hQ⟩ := hex
        rcases List.mem_cons.mp hd with rfl | hd'
        · rw [hfail] at hs
          simp at hs
        · exact ⟨d, hd', m', hs, hQ⟩
      obtain ⟨d, hd, m', hh, hQ⟩ :=
        ih m (fun d' hd' => hall d' (List.mem_cons_of_mem d0 hd')) hex'
      refine ⟨d, List.mem_cons_of_mem d0 hd, m', ?_, hQ⟩
      unfold tryDirs
      rw [hfail]
      exact hh
    · refine ⟨d0, List.mem_cons_self d0 ds, m', ?_, hQ⟩
      unfold tryDirs
      rw [hsucc]

theorem check_dest_iff {dest c : Pos} : check_cell_is_destination dest c = true ↔ c = dest := by
  unfold check_cell_is_destination
  rw [Bool.and_eq_true, decide_eq_true_eq, decide_eq_true_eq, Prod.ext_iff]

theorem mem_possible_directions {m : Maze} {c : Pos} {cf : Option Direction} {d : Direction} :
    d ∈ ([Direction.N, Direction.S, Direction.E, Direction.W].filter
        (possibleDir m.walls c cf)) ↔
      (m.walls c.1 c.2 d = false ∧ ∀ cf' : Direction, cf = some cf' → d ≠ wall_pairs cf') := by
  rw [List.mem_filter]
  unfold possibleDir
  constructor
  · rintro ⟨_, hb⟩
    simp only [Bool.and_eq_true, Bool.not_eq_true'] at hb
    refine ⟨hb.1, ?_⟩
    intro cf' hcf heq
    rw [hcf] at hb
    have hb2 := hb.2
    simp only [decide_eq_false_iff_not] at hb2
    exact hb2 heq
  · rintro ⟨hw, hcf⟩
    refine ⟨by cases d <;> simp, ?_⟩
    simp only [Bool.and_eq_true, Bool.not_eq_true']
    refine ⟨hw, ?_⟩
    cases cf with
    | none => rfl
    | some cf' => exact decide_eq_false (hcf cf' rfl)

theorem comeFromEdge_fst (c : Pos) (cf : Option Direction) : (comeFromEdge c cf).1 = c := by
  cases cf <;> rfl

theorem comeFromEdge_child (c : Pos) (d : Direction) :
    comeFromEdge (move c d) (some d) = (move c d, c) := by
  show (move c d, move (move c d) (wall_pairs d)) = (move c d, c)
  rw [move_move_pairs]

theorem maze_with_solution (m : Maze) : { m with solution := m.solution } = m := by
  cases m
  rfl

theorem maze_restore (m : Maze) (c : Pos) :
    ({ m with solution := (m.solution ++ [c]).dropLast } : Maze) = m := by
  rw [List.dropLast_concat]

/-- Joint failure/success specification of the recursive solver over the
subtree of the current cell, proved by induction on the fuel.  On a maze
whose walls satisfy `WallsInv`, a call at cell `c` with come-from `cf`
returns `False` leaving the maze untouched when the destination is not in
the subtree reachable without the come-from edge, and otherwise returns
`True` having appended a simple carved path from `c` to the destination. -/
theorem solveAux_subtree_correct (nx ny : Int) (dest : Pos) :
    ∀ (fuel : Nat) (m : Maze) (start : Option Pos) (c : Pos) (cf : Option Direction),
      m.nx = nx → m.ny = ny → WallsInv nx ny m.walls →
      resolveStart m start = some c →
      (subtreeSet m.walls c (comeFromEdge c cf)).ncard < fuel →
      ((dest ∉ subtreeSet m.walls c (comeFromEdge c cf) →
          solveAux dest fuel m start cf = some (false, m)) ∧
        (dest ∈ subtreeSet m.walls c (comeFromEdge c cf) →
          ∃ p : List Pos, solveAux dest fuel m start cf =
              some (true, { m with solution := m.solution ++ p }) ∧
            p ≠ [] ∧ p.head? = some c ∧ p.getLast? = some dest ∧ p.Nodup ∧
            List.Chain' (carvedStep m.walls) p ∧
            ∀ x ∈ p, x ∈ subtreeSet m.walls c (comeFromEdge c cf))) := by
  intro fuel
  induction fuel with
  | zero =>
    intro m start c cf _ _ _ _ hfuel
    exact absurd hfuel (Nat.not_lt_zero _)
  | succ n ih =>
    intro m start c cf hnx hny winv hres hfuel
    have hcg : inGrid nx ny c := by
      have := resolveStart_mem_grid hres
      rwa [hnx, hny] at this
    by_cases hcd : c = dest
    · subst hcd
      constructor
      · intro hdest
        exact absurd (self_mem_subtreeSet _ _ _) hdest
      · intro _
        refine ⟨[c], ?_, by simp, by simp, by simp, by simp, by simp, ?_⟩
        · unfold solveAux
          rw [hres]
          simp only [Option.bind_eq_bind, Option.some_bind]
          rw [if_pos (check_dest_iff.mpr rfl)]
          rfl
        · intro x hx
          rw [List.mem_singleton] at hx
          subst hx
          exact self_mem_subtreeSet _ _ _
    · have hchk : ¬ check_cell_is_destination dest c = true := fun h => hcd (check_dest_iff.mp h)
      have heq : solveAux dest (n + 1) m start cf =
          (if ([Direction.N, Direction.S, Direction.E, Direction.W].filter
              (possibleDir m.walls c cf)).length = 0 then
            some (false, m)
          else
            tryDirs (fun p d m' => solveAux dest n m' (some p) (some d)) c
              ([Direction.N, Direction.S, Direction.E, Direction.W].filter
                (possibleDir m.walls c cf))
              { m with solution := m.solution ++ [c] }) := by
        conv_lhs => rw [solveAux]
        rw [hres]
        simp only [Option.bind_eq_bind, Option.some_bind]
        rw [if_neg hchk]
        rfl
      have hstep_avoid : ∀ d : Direction, m.walls c.1 c.2 d = false →
          (∀ cf' : Direction, cf = some cf' → d ≠ wall_pairs cf') →
          stepAvoid m.walls c (comeFromEdge c cf).2 c (move c d) := by
        intro d hfd hexcl
        refine ⟨⟨d, rfl, hfd⟩, ?_, ?_⟩
        · rintro ⟨_, h2⟩
          cases cf with
          | none => exact move_ne c d h2
          | some cf' =>
            have h2' : move c d = move c (wall_pairs cf') := h2
            exact hexcl cf' rfl (move_dir_inj h2')
        · rintro ⟨_, h2⟩
          exact move_ne c d h2
      have hpe : ((c, (comeFromEdge c cf).2) : Pos × Pos) = comeFromEdge c cf := by
        cases cf <;> rfl
      have hDfacts : ∀ d : Direction, m.walls c.1 c.2 d = false →
          (∀ cf' : Direction, cf = some cf' → d ≠ wall_pairs cf') →
          inGrid nx ny (move c d) ∧
          (∀ x, x ∈ subtreeSet m.walls (move c d) (move c d, c) →
            x ≠ c ∧ x ∈ subtreeSet m.walls c (comeFromEdge c cf)) ∧
          (subtreeSet m.walls (move c d) (move c d, c)).ncard <
            (subtreeSet m.walls c (comeFromEdge c cf)).ncard := by
        intro d hfd hexcl
        have hug : inGrid nx ny (move c d) := (winv.grid c d hfd).2
        have hsa := hstep_avoid d hfd hexcl
        have hsub : ∀ x, x ∈ subtreeSet m.walls (move c d) (move c d, c) →
            x ≠ c ∧ x ∈ subtreeSet m.walls c (comeFromEdge c cf) := by
          intro x hx
          have h2 := subtree_child winv hfd hsa hx
          refine ⟨h2.1, ?_⟩
          rw [← hpe]
          exact h2.2
        have hss : subtreeSet m.walls (move c d) (move c d, c) ⊂
            subtreeSet m.walls c (comeFromEdge c cf) := by
          rw [Set.ssubset_iff_of_subset (fun x hx => (hsub x hx).2)]
          exact ⟨c, self_mem_subtreeSet _ _ _, fun hc => (hsub c hc).1 rfl⟩
        exact ⟨hug, hsub, Set.ncard_lt_ncard hss (subtreeSet_finite winv.grid hcg _)⟩
      have hresolve : ∀ d : Direction, inGrid nx ny (move c d) →
          resolveStart { m with solution := m.solution ++ [c] } (some (move c d)) =
            some (move c d) := by
        intro d hu
        show ({ m with solution := m.solution ++ [c] } : Maze).cell_at (move c d).1
          (move c d).2 = some (move c d)
        exact cell_at_inGrid (by rw [show ({ m with solution := m.solution ++ [c] } :
          Maze).nx = nx from hnx, show ({ m with solution := m.solution ++ [c] } :
          Maze).ny = ny from hny]; exact hu)
      have hcall := fun (d : Direction) (hfd : m.walls c.1 c.2 d = false)
          (hexcl : ∀ cf' : Direction, cf = some cf' → d ≠ wall_pairs cf') =>
        ih { m with solution := m.solution ++ [c] } (some (move c d)) (move c d) (some d)
          hnx hny winv (hresolve d (hDfacts d hfd hexcl).1)
          (by
            show (subtreeSet m.walls (move c d) (comeFromEdge (move c d) (some d))).ncard < n
            rw [comeFromEdge_child c d]
            have h1 := (hDfacts d hfd hexcl).2.2
            omega)
      constructor
      · -- failure: destination outside the subtree of c
        intro hdest
        rw [heq]
        split_ifs with hlen
        · rfl
        · have hallfail : ∀ d ∈ ([Direction.N, Direction.S, Direction.E,
              Direction.W].filter (possibleDir m.walls c cf)),
              (fun p d m' => solveAux dest n m' (some p) (some d)) (move c d) d
                { m with solution := m.solution ++ [c] } =
                some (false, { m with solution := m.solution ++ [c] }) := by
            intro d hd
            obtain ⟨hfd, hexcl⟩ := mem_possible_directions.mp hd
            refine ((hcall d hfd hexcl).1 ?_)
            show dest ∉ subtreeSet m.walls (move c d) (comeFromEdge (move c d) (some d))
            rw [comeFromEdge_child c d]
            intro hin
            exact hdest ((hDfacts d hfd hexcl).2.1 dest hin).2
          have htry := tryDirs_fail_run
            (fun p d m' => solveAux dest n m' (some p) (some d)) c
            ([Direction.N, Direction.S, Direction.E, Direction.W].filter
              (possibleDir m.walls c cf))
            { m with solution := m.solution ++ [c] } hallfail (by simp)
          rw [htry]
          have hXm : ({ { m with solution := m.solution ++ [c] } with solution :=
              ({ m with solution := m.solution ++ [c] } : Maze).solution.dropLast } :
                Maze) = m := maze_restore m c
          rw [hXm]
      · -- success: destination inside the subtree of c
        intro hdest
        obtain ⟨d1, hfd1, hexcl1, hchild1⟩ :=
          first_step_decomp (fun h => hcd h.symm) hdest
        have hd1P : d1 ∈ ([Direction.N, Direction.S, Direction.E, Direction.W].filter
            (possibleDir m.walls c cf)) :=
          mem_possible_directions.mpr ⟨hfd1, hexcl1⟩
        have hlen : ¬ (([Direction.N, Direction.S, Direction.E, Direction.W].filter
            (possibleDir m.walls c cf)).length = 0) := by
          intro h0
          rw [List.length_eq_zero] at h0
          rw [h0] at hd1P
          cases hd1P
        have hsucc_of : ∀ d : Direction, m.walls c.1 c.2 d = false →
            (∀ cf' : Direction, cf = some cf' → d ≠ wall_pairs cf') →
            dest ∈ subtreeSet m.walls (move c d) (move c d, c) →
            ∃ m', solveAux dest n { m with solution := m.solution ++ [c] }
                (some (move c d)) (some d) = some (true, m') ∧
              ∃ pc : List Pos,
                m' = { m with solution := (m.solution ++ [c]) ++ pc } ∧ pc ≠ [] ∧
                pc.head? = some (move c d) ∧ pc.getLast? = some dest ∧ pc.Nodup ∧
                List.Chain' (carvedStep m.walls) pc ∧
                ∀ x ∈ pc, x ∈ subtreeSet m.walls (move c d) (move c d, c) := by
          intro d hfd hexcl hin
          obtain ⟨pc, hrun, hpc0, hpch, hpcl, hpcn, hpcc, hpcm⟩ :=
            (hcall d hfd hexcl).2 (by
              show dest ∈ subtreeSet m.walls (move c d) (comeFromEdge (move c d) (some d))
              rw [comeFromEdge_child c d]
              exact hin)
          refine ⟨_, hrun, pc, rfl, hpc0, hpch, hpcl, hpcn, hpcc, ?_⟩
          intro x hx
          have := hpcm x hx
          rwa [show comeFromEdge (move c d) (some d) = (move c d, c) from
            comeFromEdge_child c d] at this
        obtain ⟨d, hdP, m', htry, pc, hm', hpc0, hpch, hpcl, hpcn, hpcc, hpcm⟩ := by
          refine tryDirs_success_run
            (fun p d m' => solveAux dest n m' (some p) (some d)) c
            (fun d m' => ∃ pc : List Pos,
              m' = { m with solution := (m.solution ++ [c]) ++ pc } ∧ pc ≠ [] ∧
              pc.head? = some (move c d) ∧ pc.getLast? = some dest ∧ pc.Nodup ∧
              List.Chain' (carvedStep m.walls) pc ∧
              ∀ x ∈ pc, x ∈ subtreeSet m.walls (move c d) (move c d, c))
            ([Direction.N, Direction.S, Direction.E, Direction.W].filter
              (possibleDir m.walls c cf))
            { m with solution := m.solution ++ [c] } ?_ ?_
          · intro d hd
            obtain ⟨hfd, hexcl⟩ := mem_possible_directions.mp hd
            by_cases hin : dest ∈ subtreeSet m.walls (move c d) (move c d, c)
            · right
              obtain ⟨m', hrun, hQ⟩ := hsucc_of d hfd hexcl hin
              exact ⟨m', hrun, hQ⟩
            · left
              refine ((hcall d hfd hexcl).1 ?_)
              show dest ∉ subtreeSet m.walls (move c d) (comeFromEdge (move c d) (some d))
              rw [comeFromEdge_child c d]
              exact hin
          · obtain ⟨m', hrun, hQ⟩ := hsucc_of d1 hfd1 hexcl1 hchild1
            exact ⟨d1, hd1P, m', hrun, hQ⟩
        obtain ⟨hfd, hexcl⟩ := mem_possible_directions.mp hdP
        refine ⟨c :: pc, ?_, by simp, rfl, ?_, ?_, ?_, ?_⟩
        · rw [heq, if_neg hlen, htry, hm']
          congr 2
          rw [List.append_assoc]
          rfl
        · cases pc with
          | nil => exact absurd rfl hpc0
          | cons a t =>
            rw [List.getLast?_cons_cons]
            exact hpcl
        · rw [List.nodup_cons]
          refine ⟨?_, hpcn⟩
          intro hc
          exact ((hDfacts d hfd hexcl).2.1 c (hpcm c hc)).1 rfl
        · rw [List.chain'_cons']
          refine ⟨?_, hpcc⟩
          intro b hb
          rw [hpch] at hb
          rw [Option.mem_some_iff] at hb
          subst hb
          exact ⟨d, rfl, hfd⟩
        · intro x hx
          rcases List.mem_cons.mp hx with rfl | hx
          · exact self_mem_subtreeSet _ _ _
          · exact ((hDfacts d hfd hexcl).2.1 x (hpcm x hx)).2

/-- Plain reachability implies reachability avoiding the degenerate non-edge
`(c, c)`: no carved step can have both endpoints equal to `c`, since a step
moves to a distinct neighbouring cell. -/
theorem Reach_reachAvoid_self {w : Walls} (c : Pos) {a b : Pos} (h : Reach w a b) :
    ReachAvoid w c c a b := by
  induction h with
  | refl => exact Relation.ReflTransGen.refl
  | tail hr hstep ih =>
    rename_i b' b''
    obtain ⟨d, hq, hf⟩ := hstep
    have hne : b'' ≠ b' := by
      rw [hq]
      exact move_ne b' d
    refine ih.tail ⟨⟨d, hq, hf⟩, ?_, ?_⟩ <;>
      · rintro ⟨e1, e2⟩
        exact hne (e2.trans e1.symm)

/-- C2: on every carved maze (any `nx, ny ≥ 1` grid with in-bounds entry
`(ix, iy)`, carved by `make_maze`) and every in-bounds destination reachable
from the entry through removed walls, `solve(destination)` succeeds (returns
`True`, raising nothing), and the recorded solution path is nonempty, starts
at the entry cell, ends at the destination, repeats no cell, has each
consecutive pair joined by a removed wall between grid-neighbours, and stays
inside the grid. -/
theorem solve_correct (nx ny ix iy : Int) (rng : Nat → Nat) (m' : Maze) (dest : Pos)
    (hx1 : 0 ≤ ix) (hx2 : ix < nx) (hy1 : 0 ≤ iy) (hy2 : iy < ny)
    (hmk : (Maze.init nx ny ix iy).make_maze rng = some m')
    (hdest : inGrid nx ny dest) (hreachable : Reach m'.walls (ix, iy) dest) :
    ∃ m2 : Maze, m'.solve dest = some (true, m2) ∧
      m2.solution ≠ [] ∧ m2.solution.head? = some ((ix, iy) : Pos) ∧
      m2.solution.getLast? = some dest ∧ m2.solution.Nodup ∧
      List.Chain' (carvedStep m'.walls) m2.solution ∧
      ∀ x ∈ m2.solution, inGrid nx ny x := by
  obtain ⟨m0, hmk0, hnx, hny, hix, hiy, hsol, winv, hcount, hreach, _⟩ :=
    make_maze_spec nx ny ix iy hx1 hx2 hy1 hy2 rng
  rw [hmk0] at hmk
  have hm0 : m0 = m' := Option.some.inj hmk
  subst hm0
  have hentry : inGrid nx ny ((ix, iy) : Pos) := ⟨hx1, hx2, hy1, hy2⟩
  have hres : resolveStart m0 none = some ((ix, iy) : Pos) := by
    show m0.cell_at m0.ix m0.iy = some ((ix, iy) : Pos)
    rw [hix, hiy]
    exact cell_at_inGrid (by rw [hnx, hny]; exact hentry)
  have hdest_sub : dest ∈ subtreeSet m0.walls ((ix, iy) : Pos)
      (comeFromEdge ((ix, iy) : Pos) none) :=
    Reach_reachAvoid_self _ hreachable
  have hprod : ((nx.toNat * ny.toNat : Nat) : Int) = nx * ny := by
    push_cast
    rw [Int.toNat_of_nonneg (by omega : (0 : Int) ≤ nx),
      Int.toNat_of_nonneg (by omega : (0 : Int) ≤ ny)]
  have hfuel : (subtreeSet m0.walls ((ix, iy) : Pos)
      (comeFromEdge ((ix, iy) : Pos) none)).ncard < (m0.nx * m0.ny).toNat + 1 := by
    have h1 := subtreeSet_ncard_le winv.grid hentry (comeFromEdge ((ix, iy) : Pos) none)
    have h2 : (m0.nx * m0.ny).toNat = nx.toNat * ny.toNat := by
      rw [hnx, hny, ← hprod, Int.toNat_natCast]
    omega
  obtain ⟨p, hrun, hp0, hph, hpl, hpn, hpc, hpm⟩ :=
    (solveAux_subtree_correct nx ny dest ((m0.nx * m0.ny).toNat + 1) m0 none
      ((ix, iy)) none hnx hny winv hres hfuel).2 hdest_sub
  refine ⟨{ m0 with solution := m0.solution ++ p }, hrun, ?_, ?_, ?_, ?_, ?_, ?_⟩
  · show m0.solution ++ p ≠ []
    rw [hsol, List.nil_append]
    exact hp0
  · show (m0.solution ++ p).head? = some ((ix, iy) : Pos)
    rw [hsol, List.nil_append]
    exact hph
  · show (m0.solution ++ p).getLast? = some dest
    rw [hsol, List.nil_append]
    exact hpl
  · show (m0.solution ++ p).Nodup
    rw [hsol, List.nil_append]
    exact hpn
  · show List.Chain' (carvedStep m0.walls) (m0.solution ++ p)
    rw [hsol, List.nil_append]
    exact hpc
  · show ∀ x ∈ m0.solution ++ p, inGrid nx ny x
    rw [hsol, List.nil_append]
    intro x hx
    exact ReachAvoid_inGrid winv.grid hentry (hpm x hx)

/-- Witness for C2 at the concrete carved `1 × 1` maze with entry and
destination `(0, 0)`. -/
theorem solve_correct_witness :
    (0 : Int) ≤ 0 ∧ (0 : Int) < 1 ∧
    (Maze.init 1 1 0 0).make_maze (fun _ => 0) = some (Maze.init 1 1 0 0) ∧
    inGrid 1 1 ((0, 0) : Pos) ∧
    Reach (Maze.init 1 1 0 0).walls (0, 0) ((0, 0) : Pos) ∧
    ∃ m2 : Maze, (Maze.init 1 1 0 0).solve ((0, 0) : Pos) = some (true, m2) ∧
      m2.solution ≠ [] ∧ m2.solution.head? = some (((0 : Int), (0 : Int)) : Pos) ∧
      m2.solution.getLast? = some ((0, 0) : Pos) ∧ m2.solution.Nodup ∧
      List.Chain' (carvedStep (Maze.init 1 1 0 0).walls) m2.solution ∧
      ∀ x ∈ m2.solution, inGrid 1 1 x :=
  ⟨le_refl 0, by decide, rfl, by decide, Relation.ReflTransGen.refl,
    solve_correct 1 1 0 0 (fun _ => 0) (Maze.init 1 1 0 0) ((0, 0)) (le_refl 0)
      (by decide) (le_refl 0) (by decide) rfl (by decide) Relation.ReflTransGen.refl⟩

end MazePy